import Mathlib

/-!
Verification of the duplicate-tweet detection engine in
`src/duplicate_detector.py` (classes `Tweet` and `DuplicateDetector` and the
standalone `main`).  The Python code is shallowly embedded: strings are
`String`/`List Char`, Python floats are modelled as exact rationals `ℚ`
(every concrete comparison proved here is numerically far from any
binary-float rounding boundary), `datetime` objects are a record of calendar
fields plus an optional UTC offset, and operations that can raise a Python
exception return `Option`/`none` at the raise site.  File input/output is
abstracted to the file contents as a `String`.  Regex character classes:
Python `\s` is modelled by `pyIsSpace` (ASCII whitespace) and Python `\w`
(Unicode word characters) by `isWordChar` — ASCII alphanumerics, underscore,
and all code points above 127; this is exact for the ASCII and Arabic-letter
texts this development evaluates.  The md5 digest is modelled as an abstract
deterministic digest (spec section 9 notes only determinism is required);
every claim proved here uses only that equal inputs give equal digests.
-/

namespace TwitterDedup

set_option maxRecDepth 10000

/-- Python `\s` for the ASCII range: space, tab, newline, carriage return,
vertical tab, form feed.  Used by `strip` and the whitespace-collapsing
regular expression in `_normalize_content`. -/
def pyIsSpace (c : Char) : Bool :=
  c = ' ' || c = '\t' || c = '\n' || c = '\r' || c = '\x0b' || c = '\x0c'

/-- Python `\w`: ASCII alphanumerics, underscore, and (as an approximation of
the full Unicode word-character class) every code point above 127. -/
def isWordChar (c : Char) : Bool :=
  c.isAlphanum || c = '_' || decide (127 < c.toNat)

/-- Python `str.strip` on the left: drop leading whitespace. -/
def stripLeft (l : List Char) : List Char := l.dropWhile pyIsSpace

/-- Python `str.strip`: drop leading and trailing whitespace. -/
def pyStripL (l : List Char) : List Char :=
  ((stripLeft l).reverse.dropWhile pyIsSpace).reverse

/-- Python `str.strip` on `String`. -/
def pyStrip (s : String) : String := ⟨pyStripL s.data⟩

/-- Python `a.startswith(p)` as a list-level prefix test. -/
def startsWithL : List Char → List Char → Bool
  | [], _ => true
  | _ :: _, [] => false
  | p :: ps, c :: cs => p = c && startsWithL ps cs

/-- Python substring containment `p in s` (list level): `p` occurs
contiguously somewhere in `s`.  The empty string is contained in every
string, as in Python. -/
def isSubL (p : List Char) : List Char → Bool
  | [] => startsWithL p []
  | c :: cs => startsWithL p (c :: cs) || isSubL p cs

/-- Python substring containment on `String`. -/
def isSub (p s : String) : Bool := isSubL p.data s.data

/-- Character containment, modelling Python `ch in s` for one-character
needles. -/
def containsChar (l : List Char) (ch : Char) : Bool := l.contains ch

/-- Split a character list at newline characters.  Models reading the saved
file back with `readlines` (each resulting line is subsequently stripped,
so the difference between keeping and discarding the terminators is
immaterial). -/
def splitNl : List Char → List Char → List String
  | [], cur => [⟨cur.reverse⟩]
  | c :: rest, cur =>
      if c = '\n' then ⟨cur.reverse⟩ :: splitNl rest []
      else splitNl rest (c :: cur)

/-- Decimal digits of a natural number, most significant first; the fuel
argument bounds the recursion depth.  Agrees with the Python rendering
`str(n)` for every `n` once the fuel is at least the digit count. -/
def natDigitsAux : Nat → Nat → List Char
  | 0, _ => []
  | fuel + 1, n =>
      if n = 0 then []
      else natDigitsAux fuel (n / 10) ++ [Char.ofNat (48 + n % 10)]

/-- Python `str(n)` for a natural number. -/
def natToString (n : Nat) : String :=
  if n = 0 then "0" else ⟨natDigitsAux (n + 1) n⟩

/-- Zero-padded decimal rendering, width `w`, for `strftime` and
`isoformat` fields. -/
def padNat (w n : Nat) : String :=
  let s := natToString n
  ⟨List.replicate (w - s.data.length) '0' ++ s.data⟩

/-- Leftmost-first replacement of every occurrence of the pattern `pat` by
`rep`, modelling Python `str.replace`.  Fuel-bounded scan; the fuel is
always instantiated to the input length, which suffices because every step
consumes at least one input character (the pattern is nonempty at every use
site). -/
def replaceAllAux (pat rep : List Char) : Nat → List Char → List Char
  | 0, l => l
  | _ + 1, [] => []
  | fuel + 1, c :: rest =>
      if startsWithL pat (c :: rest) then
        rep ++ replaceAllAux pat rep fuel ((c :: rest).drop pat.length)
      else
        c :: replaceAllAux pat rep fuel rest

/-- Python `s.replace(pat, rep)`. -/
def replaceAll (s pat rep : String) : String :=
  ⟨replaceAllAux pat.data rep.data s.data.length s.data⟩

/-!  Datetime model.  A Python `datetime` is a record of calendar fields plus
an optional UTC offset in minutes (`none` models a naive datetime,
`some off` an aware one).  Subtraction and ordering raise `TypeError` in
Python when exactly one operand is aware; those operations therefore return
`Option` values here, with `none` at the raise site. -/

structure PyDatetime where
  year : Nat
  month : Nat
  day : Nat
  hour : Nat
  minute : Nat
  second : Nat
  microsecond : Nat
  tzOffsetMinutes : Option Int
  deriving Repr, DecidableEq

/-- Days from 0001-01-01 (proleptic Gregorian), Python
`datetime.toordinal`. -/
def daysBeforeMonth (m : Nat) : Nat :=
  [0, 0, 31, 59, 90, 120, 151, 181, 212, 243, 273, 304, 334].getD m 0

def isLeapYear (y : Nat) : Bool :=
  y % 4 = 0 && (y % 100 ≠ 0 || y % 400 = 0)

def toOrdinal (y m d : Nat) : Nat :=
  365 * (y - 1) + (y - 1) / 4 - (y - 1) / 100 + (y - 1) / 400 +
    daysBeforeMonth m + (if 2 < m && isLeapYear y then 1 else 0) + d

/-- Microseconds from the epoch 0001-01-01T00:00:00 ignoring the offset
field (the naive wall-clock reading). -/
def PyDatetime.naiveMicros (t : PyDatetime) : Int :=
  ((((toOrdinal t.year t.month t.day - 1) * 24 + t.hour) * 60 + t.minute) * 60
      + t.second : Nat) * 1000000 + t.microsecond

/-- Effective instant in microseconds: the wall-clock reading shifted by the
UTC offset when the datetime is aware.  Two aware datetimes compare by this
value in Python; naive ones compare by the wall clock. -/
def PyDatetime.effectiveMicros (t : PyDatetime) : Int :=
  t.naiveMicros - (t.tzOffsetMinutes.getD 0) * 60000000

/-- Whether the datetime is timezone-aware. -/
def PyDatetime.aware (t : PyDatetime) : Bool := t.tzOffsetMinutes.isSome

/-- Python datetime subtraction in microseconds.  Raises `TypeError`
(modelled as `none`) when exactly one operand is aware. -/
def dsub (a b : PyDatetime) : Option Int :=
  if a.aware = b.aware then some (a.effectiveMicros - b.effectiveMicros)
  else none

/-- Python `a < b` on datetimes; same raise behaviour as subtraction. -/
def dateLt (a b : PyDatetime) : Option Bool :=
  (dsub a b).map fun δ => decide (δ < 0)

/-- Python `a <= b` on datetimes. -/
def dateLe (a b : PyDatetime) : Option Bool :=
  (dsub a b).map fun δ => decide (δ ≤ 0)

/-- Python `datetime.isoformat()`: `YYYY-MM-DDTHH:MM:SS`, the microsecond
field appended as `.ffffff` only when nonzero, and the UTC offset appended
as `sHH:MM` for aware values. -/
def PyDatetime.isoformat (t : PyDatetime) : String :=
  padNat 4 t.year ++ "-" ++ padNat 2 t.month ++ "-" ++ padNat 2 t.day ++
  "T" ++ padNat 2 t.hour ++ ":" ++ padNat 2 t.minute ++ ":" ++
  padNat 2 t.second ++
  (if t.microsecond = 0 then "" else "." ++ padNat 6 t.microsecond) ++
  (match t.tzOffsetMinutes with
   | none => ""
   | some off =>
       (if off < 0 then "-" else "+") ++ padNat 2 (off.natAbs / 60) ++ ":" ++
         padNat 2 (off.natAbs % 60))

/-- Python `strftime` with format `%Y-%m-%d`. -/
def PyDatetime.fmtYmd (t : PyDatetime) : String :=
  padNat 4 t.year ++ "-" ++ padNat 2 t.month ++ "-" ++ padNat 2 t.day

/-- Python `strftime` with format `%Y-%m-%d %H:%M`, used by
`Tweet.__str__`. -/
def PyDatetime.fmtYmdHm (t : PyDatetime) : String :=
  t.fmtYmd ++ " " ++ padNat 2 t.hour ++ ":" ++ padNat 2 t.minute

/-! Date-string parsing, embedding `Tweet._parse_date`. -/

/-- Numeric value of a decimal digit character. -/
def digitVal (c : Char) : Option Nat :=
  if c.isDigit then some (c.toNat - 48) else none

/-- Parse exactly `n` decimal digits from the front of the list. -/
def parseDigits : Nat → List Char → Option (Nat × List Char)
  | 0, l => some (0, l)
  | _ + 1, [] => none
  | n + 1, c :: rest => do
      let d ← digitVal c
      let (v, rest') ← parseDigits n rest
      pure (d * 10 ^ n + v, rest')

/-- Expect a specific character at the front. -/
def expectChar (ch : Char) : List Char → Option (List Char)
  | [] => none
  | c :: rest => if c = ch then some rest else none

def daysInMonth (y m : Nat) : Nat :=
  if m = 2 then (if isLeapYear y then 29 else 28)
  else [0, 31, 0, 31, 30, 31, 30, 31, 31, 30, 31, 30, 31].getD m 0

/-- Parse `YYYY-MM-DD` with range validation, returning the remaining
characters. -/
def parseIsoCalendar (l : List Char) :
    Option (Nat × Nat × Nat × List Char) := do
  let (y, r1) ← parseDigits 4 l
  let r2 ← expectChar '-' r1
  let (m, r3) ← parseDigits 2 r2
  let r4 ← expectChar '-' r3
  let (d, r5) ← parseDigits 2 r4
  if 1 ≤ m ∧ m ≤ 12 ∧ 1 ≤ d ∧ d ≤ daysInMonth y m ∧ 1 ≤ y then
    pure (y, m, d, r5)
  else none

/-- Parse the fractional-second part `.fff` or `.ffffff` (the only widths
`fromisoformat` accepts before Python 3.11), returning microseconds. -/
def parseFraction : List Char → Option (Nat × List Char)
  | '.' :: rest => do
      let (a, r3) ← parseDigits 3 rest
      match parseDigits 3 r3 with
      | some (b, r6) => pure (a * 1000 + b, r6)
      | none => pure (a * 1000, r3)
  | l => some (0, l)

/-- Parse the UTC offset `sHH:MM`, returning minutes. -/
def parseOffset : List Char → Option (Option Int × List Char)
  | [] => some (none, [])
  | c :: rest =>
      if c = '+' ∨ c = '-' then do
        let (hh, r1) ← parseDigits 2 rest
        let r2 ← expectChar ':' r1
        let (mm, r3) ← parseDigits 2 r2
        let v : Int := (hh * 60 + mm : Nat)
        pure (some (if c = '-' then -v else v), r3)
      else none

/-- Embedding of `datetime.fromisoformat` restricted to the shapes this
program can feed it: a calendar date, optionally followed by a separator
character (ignored, as in CPython before 3.11), `HH:MM:SS`, an optional
3- or 6-digit fraction, and an optional `sHH:MM` offset.  Any other string
fails, which the caller turns into the documented current-time fallback. -/
def fromIsoformat (s : String) : Option PyDatetime := do
  let (y, m, d, r) ← parseIsoCalendar s.data
  match r with
  | [] => pure ⟨y, m, d, 0, 0, 0, 0, none⟩
  | _ :: tr => do
      let (hh, t1) ← parseDigits 2 tr
      let t2 ← expectChar ':' t1
      let (mi, t3) ← parseDigits 2 t2
      let t4 ← expectChar ':' t3
      let (ss, t5) ← parseDigits 2 t4
      let (us, t6) ← parseFraction t5
      let (off, t7) ← parseOffset t6
      if t7 = [] ∧ hh < 24 ∧ mi < 60 ∧ ss < 60 then
        pure ⟨y, m, d, hh, mi, ss, us, off⟩
      else none

/-- Embedding of `datetime.strptime(s, "%Y-%m-%d")` on the zero-padded
calendar-date shape (the only shape the ten-character gate in
`_parse_date` lets through in practice); failures become the current-time
fallback. -/
def strptimeYmd (s : String) : Option PyDatetime := do
  let (y, m, d, r) ← parseIsoCalendar s.data
  if r = [] then pure ⟨y, m, d, 0, 0, 0, 0, none⟩ else none

/-- Embedding of `Tweet._parse_date`.  The nondeterministic
`datetime.now()` fallback is supplied as the explicit argument `now`. -/
def parseDate (s : String) (now : PyDatetime) : PyDatetime :=
  if containsChar s.data 'T' && containsChar s.data 'Z' then
    (fromIsoformat (replaceAll s "Z" "+00:00")).getD now
  else if s.data.length = 10 then
    (strptimeYmd s).getD now
  else now

/-! Text normalisation, embedding `Tweet._normalize_content` and its
regular expressions. -/

/-- One application of the Arabic fold table of `_normalize_content`.  The
Python code applies seven single-character `str.replace` calls in dict
order; since every source is a single character and no target is a source,
that equals this character map. -/
def foldArabicChar (c : Char) : Char :=
  if c = 'أ' then 'ا'
  else if c = 'إ' then 'ا'
  else if c = 'آ' then 'ا'
  else if c = 'ة' then 'ه'
  else if c = 'ى' then 'ي'
  else if c = 'ئ' then 'ي'
  else if c = 'ؤ' then 'و'
  else c

/-- Collapse whitespace runs to a single space, the effect of
`re.sub(r'\s+', ' ', s)`.  Fuel-bounded; the fuel is instantiated to the
input length, which every lemma below shows is sufficient. -/
def collapseRunsAux : Nat → List Char → List Char
  | 0, l => l
  | _ + 1, [] => []
  | fuel + 1, c :: rest =>
      if pyIsSpace c then ' ' :: collapseRunsAux fuel (rest.dropWhile pyIsSpace)
      else c :: collapseRunsAux fuel rest

def collapseRuns (l : List Char) : List Char := collapseRunsAux l.length l

/-- Match the regex `https?://\S+` anchored at the front of the list; on
success return the characters after the match.  The `s?` branch is tried
greedily first, exactly as the backtracking engine does. -/
def matchUrlAt : List Char → Option (List Char)
  | 'h' :: 't' :: 't' :: 'p' :: rest =>
      match rest with
      | 's' :: ':' :: '/' :: '/' :: body =>
          if (body.takeWhile (fun c => !pyIsSpace c)).isEmpty then none
          else some (body.dropWhile (fun c => !pyIsSpace c))
      | ':' :: '/' :: '/' :: body =>
          if (body.takeWhile (fun c => !pyIsSpace c)).isEmpty then none
          else some (body.dropWhile (fun c => !pyIsSpace c))
      | _ => none
  | _ => none

/-- The substitution `re.sub(r'https?://\S+', '', s)`: leftmost,
non-overlapping scan.  Fuel-bounded structural recursion. -/
def removeUrlsAux : Nat → List Char → List Char
  | 0, l => l
  | _ + 1, [] => []
  | fuel + 1, c :: rest =>
      match matchUrlAt (c :: rest) with
      | some rest' => removeUrlsAux fuel rest'
      | none => c :: removeUrlsAux fuel rest

def removeUrlsL (l : List Char) : List Char := removeUrlsAux l.length l

/-- String-level wrapper for the URL substitution, used to state when a
normalised text contains no URL-shaped substring. -/
def removeUrls (s : String) : String := ⟨removeUrlsL s.data⟩

/-- The substitution `re.sub(r'@\w+', '', s)`: a mention is `@` followed by
one or more word characters, consumed greedily.  Fuel-bounded. -/
def removeMentionsAux : Nat → List Char → List Char
  | 0, l => l
  | _ + 1, [] => []
  | fuel + 1, c :: rest =>
      if c = '@' then
        match rest with
        | [] => ['@']
        | c2 :: rest2 =>
            if isWordChar c2 then
              removeMentionsAux fuel (rest2.dropWhile isWordChar)
            else '@' :: removeMentionsAux fuel (c2 :: rest2)
      else c :: removeMentionsAux fuel rest

def removeMentionsL (l : List Char) : List Char := removeMentionsAux l.length l

/-- Embedding of `Tweet._normalize_content`: collapse whitespace and strip,
fold the Arabic table, strip URLs, strip mentions, collapse and strip
again.  Empty input short-circuits to the empty string. -/
def normalizeContent (content : String) : String :=
  if content = "" then ""
  else
    let c1 := collapseRuns (pyStripL content.data)
    let c2 := c1.map foldArabicChar
    let c3 := removeUrlsL c2
    let c4 := removeMentionsL c3
    ⟨pyStripL (collapseRuns c4)⟩

/-! Mention extraction, embedding `Tweet._extract_reply_to`. -/

/-- Parse one `@\w+` token at the front of the list. -/
def mentionAt : List Char → Option (List Char × List Char)
  | '@' :: rest =>
      if isWordChar (rest.headD ' ') then
        some ('@' :: rest.takeWhile isWordChar, rest.dropWhile isWordChar)
      else none
  | _ => none

/-- Parse the leading-run group `(@\w+(?:\s+@\w+)*)`: further mention
tokens after runs of whitespace.  Fuel-bounded. -/
def leadingMentionsAux : Nat → List Char → List (List Char)
  | 0, _ => []
  | fuel + 1, l =>
      let l' := l.dropWhile pyIsSpace
      if l'.length = l.length then []
      else
        match mentionAt l' with
        | some (m, rest) => m :: leadingMentionsAux fuel rest
        | none => []

/-- All mentions of a leading run `@\w+(\s+@\w+)*`, or `[]` when the text
does not begin with a mention token. -/
def leadingMentions (l : List Char) : List (List Char) :=
  match mentionAt l with
  | some (m, rest) => m :: leadingMentionsAux rest.length rest
  | none => []

/-- The fallback `re.findall(r'@\w+', content)`: every mention anywhere in
the text, in order of occurrence.  Fuel-bounded scan. -/
def findAllMentionsAux : Nat → List Char → List (List Char)
  | 0, _ => []
  | _ + 1, [] => []
  | fuel + 1, c :: rest =>
      match mentionAt (c :: rest) with
      | some (m, rest') => m :: findAllMentionsAux fuel rest'
      | none => findAllMentionsAux fuel rest

def findAllMentions (l : List Char) : List (List Char) :=
  findAllMentionsAux l.length l

/-- Python `", ".join(items)`. -/
def joinCommaSpace : List (List Char) → List Char
  | [] => []
  | [m] => m
  | m :: rest => m ++ [',', ' '] ++ joinCommaSpace rest

/-- Embedding of `Tweet._extract_reply_to`.  The fallback branch passes the
match list through `set(...)` whose iteration order CPython leaves
unspecified; it is modelled as first-occurrence-order deduplication, and no
claim below depends on that order. -/
def extractReplyTo (content : String) : String :=
  if content = "" then ""
  else
    match leadingMentions (pyStripL content.data) with
    | m :: rest => ⟨joinCommaSpace (m :: rest)⟩
    | [] =>
        let all := (findAllMentions content.data).dedup
        if all.isEmpty then "" else ⟨joinCommaSpace all⟩

/-- Modelled: the md5 hex digest, abstracted to a deterministic digest
(spec section 9 states any deterministic fixed-length digest suffices).
All claims proved here use only that equal inputs give equal digests. -/
def md5Hex (s : String) : String := "md5:" ++ s

/-! The `Tweet` record and its constructor. -/

structure Tweet where
  date : PyDatetime
  original_content : String
  reply_to : String
  content : String
  urls : List String
  signature : String
  deriving Repr, DecidableEq

/-- Embedding of `Tweet.__init__`.  The `urls or []` defaulting collapses
to the supplied list, and `datetime.now()` is the explicit `now`
argument. -/
def Tweet.make (dateStr content replyTo : String) (urls : List String)
    (now : PyDatetime) : Tweet :=
  let d := parseDate dateStr now
  let norm := normalizeContent content
  { date := d
    original_content := content
    reply_to := if replyTo = "" then extractReplyTo content else replyTo
    content := norm
    urls := urls
    signature := md5Hex (d.fmtYmd ++ "_" ++ norm) }

/-- Embedding of `Tweet.get_content_hash`. -/
def Tweet.getContentHash (t : Tweet) : String := md5Hex t.content

/-- Embedding of `Tweet.__str__`: formatted date, dash, the first fifty
characters of the normalised content, trailing ellipsis. -/
def Tweet.render (t : Tweet) : String :=
  t.date.fmtYmdHm ++ " - " ++ ⟨t.content.data.take 50⟩ ++ "..."

/-- Placeholder tweet for the in-bounds list accesses `tweets[i]` of the
Python code (never reached out of bounds there). -/
def dummyTweet : Tweet :=
  { date := ⟨1, 1, 1, 0, 0, 0, 0, none⟩
    original_content := ""
    reply_to := ""
    content := ""
    urls := []
    signature := "" }

/-! Embedding of `difflib.SequenceMatcher(None, a, b).ratio()` as used by
`calculate_content_similarity`.  The autojunk heuristic of difflib only
activates for second sequences of length at least 200 and is therefore
omitted; with autojunk inactive the junk sets are empty and the
junk-extension loops of `find_longest_match` are no-ops.  The loops are
written with explicit fuel so that the kernel can evaluate them on concrete
inputs; every fuel argument is instantiated generously enough for the
actual recursion depth. -/

/-- The `b2j` table of difflib: the positions of a character in `b`, in
ascending order. -/
def b2j (b : List Char) (c : Char) : List Nat :=
  (b.enum.filter (fun p => p.2 = c)).map (fun p => p.1)

/-- One row of the dynamic program inside `find_longest_match`: walk the
ascending candidate positions of `a[i]` in `b`, skipping positions below
`blo` and stopping at the first position at or beyond `bhi` (the `break`),
building the new run-length table and updating the best block when a
strictly longer run appears. -/
def processJs (j2lenOld : List (Nat × Nat)) (i blo bhi : Nat) :
    List Nat → List (Nat × Nat) → Nat × Nat × Nat →
    List (Nat × Nat) × (Nat × Nat × Nat)
  | [], newTab, best => (newTab, best)
  | j :: js, newTab, best =>
      if j < blo then processJs j2lenOld i blo bhi js newTab best
      else if bhi ≤ j then (newTab, best)
      else
        let k := (if j = 0 then 0 else (j2lenOld.lookup (j - 1)).getD 0) + 1
        let best' := if best.2.2 < k then (i + 1 - k, j + 1 - k, k) else best
        processJs j2lenOld i blo bhi js ((j, k) :: newTab) best'

/-- The row loop of `find_longest_match`, `i` running from `alo` while the
fuel counts down from `ahi - alo`. -/
def flmRows (a b : List Char) (blo bhi : Nat) :
    Nat → Nat → List (Nat × Nat) → Nat × Nat × Nat → Nat × Nat × Nat
  | 0, _, _, best => best
  | fuel + 1, i, j2len, best =>
      let step := processJs j2len i blo bhi (b2j b (a.getD i ' ')) [] best
      flmRows a b blo bhi fuel (i + 1) step.1 step.2

/-- The left extension loop of `find_longest_match` (the junk variant is a
no-op with empty junk). -/
def extendLeft (a b : List Char) (alo blo : Nat) :
    Nat → Nat × Nat × Nat → Nat × Nat × Nat
  | 0, best => best
  | fuel + 1, (bi, bj, bs) =>
      if alo < bi && blo < bj &&
          (a.getD (bi - 1) ' ' = b.getD (bj - 1) ' ') then
        extendLeft a b alo blo fuel (bi - 1, bj - 1, bs + 1)
      else (bi, bj, bs)

/-- The right extension loop of `find_longest_match`. -/
def extendRight (a b : List Char) (ahi bhi : Nat) :
    Nat → Nat × Nat × Nat → Nat × Nat × Nat
  | 0, best => best
  | fuel + 1, (bi, bj, bs) =>
      if bi + bs < ahi && bj + bs < bhi &&
          (a.getD (bi + bs) ' ' = b.getD (bj + bs) ' ') then
        extendRight a b ahi bhi fuel (bi, bj, bs + 1)
      else (bi, bj, bs)

/-- `find_longest_match(alo, ahi, blo, bhi)` with empty junk sets. -/
def findLongestMatch (a b : List Char) (alo ahi blo bhi : Nat) :
    Nat × Nat × Nat :=
  let best := flmRows a b blo bhi (ahi - alo) alo [] (alo, blo, 0)
  let best := extendLeft a b alo blo (ahi + 1) best
  extendRight a b ahi bhi (ahi + bhi + 1) best

/-- Total size of all matching blocks found by the recursive splitting of
`get_matching_blocks` (order of traversal does not affect the sum, and the
final merge step of difflib preserves it). -/
def smMatchesAux (a b : List Char) : Nat → Nat → Nat → Nat → Nat → Nat
  | 0, _, _, _, _ => 0
  | fuel + 1, alo, ahi, blo, bhi =>
      let t := findLongestMatch a b alo ahi blo bhi
      let i := t.1
      let j := t.2.1
      let k := t.2.2
      if k = 0 then 0
      else
        k + (if alo < i && blo < j then smMatchesAux a b fuel alo i blo j else 0)
          + (if i + k < ahi && j + k < bhi then
              smMatchesAux a b fuel (i + k) ahi (j + k) bhi else 0)

def smMatches (a b : List Char) : Nat :=
  smMatchesAux a b (a.length + b.length + 1) 0 a.length 0 b.length

/-- `SequenceMatcher(None, a, b).ratio()`: twice the matched size over the
total length; difflib defines the ratio of two empty sequences as 1. -/
def smRatio (s1 s2 : String) : ℚ :=
  let la := s1.data.length
  let lb := s2.data.length
  if la + lb = 0 then 1
  else Rat.divInt (2 * smMatches s1.data s2.data) (la + lb)

/-- Embedding of `DuplicateDetector.calculate_content_similarity`: zero when
either text is empty, otherwise the sequence-matcher ratio, raised to at
least 0.9 when one text is a substring of the other. -/
def calculateContentSimilarity (text1 text2 : String) : ℚ :=
  if text1 = "" ∨ text2 = "" then 0
  else
    let similarity := smRatio text1 text2
    if isSub text1 text2 || isSub text2 text1 then
      max similarity (Rat.divInt 9 10)
    else similarity

/-! The detector, its clustering pass, resolution, report and
persistence. -/

structure DuplicateDetector where
  content_threshold : ℚ
  date_window_micros : Int
  deriving Repr, DecidableEq

/-- Embedding of `DuplicateDetector.__init__`: `timedelta(hours=h)` stored
in microseconds. -/
def DuplicateDetector.make (threshold : ℚ) (hours : Nat) : DuplicateDetector :=
  { content_threshold := threshold
    date_window_micros := (hours : Int) * 3600000000 }

/-- The detector built from the CLI defaults, threshold 0.85 and a
24-hour window. -/
def defaultDetector : DuplicateDetector := DuplicateDetector.make (Rat.divInt 17 20) 24

/-- Embedding of `are_dates_close`; `none` models the `TypeError` raised by
Python when subtracting a naive datetime from an aware one. -/
def areDatesClose (det : DuplicateDetector) (d1 d2 : PyDatetime) :
    Option Bool :=
  (dsub d1 d2).map fun δ => decide (|δ| ≤ det.date_window_micros)

/-- The list access `tweets[i]`; every access performed by the embedded
code is in bounds. -/
def tweetAt (ts : List Tweet) (i : Nat) : Tweet := ts.getD i dummyTweet

/-- The inner `for j in range(i + 1, n)` loop of `find_duplicates`,
iterating over the list of remaining candidate indices.  A date-comparison
`TypeError` aborts the whole call (`none`). -/
def innerLoop (det : DuplicateDetector) (ts : List Tweet) (i : Nat) :
    List Nat → List Nat → List Nat → Option (List Nat × List Nat)
  | [], processed, group => some (group, processed)
  | j :: js, processed, group =>
      if j ∈ processed then innerLoop det ts i js processed group
      else
        match areDatesClose det (tweetAt ts i).date (tweetAt ts j).date with
        | none => none
        | some false => innerLoop det ts i js processed group
        | some true =>
            if det.content_threshold ≤
                calculateContentSimilarity (tweetAt ts i).content
                  (tweetAt ts j).content then
              innerLoop det ts i js (j :: processed) (group ++ [j])
            else innerLoop det ts i js processed group

/-- The outer `for i in range(n)` loop of `find_duplicates`, iterating over
the list of remaining indices; the candidate scan of anchor `i` runs over
the indices after `i`, which are exactly the tail of the remaining list.
A candidate group is emitted only at size two or more, in which case all
its members are marked processed. -/
def outerLoop (det : DuplicateDetector) (ts : List Tweet) :
    List Nat → List Nat → Option (List (List Nat))
  | [], _ => some []
  | i :: is, processed =>
      if i ∈ processed then outerLoop det ts is processed
      else
        match innerLoop det ts i is processed [i] with
        | none => none
        | some (group, processed') =>
            if 1 < group.length then
              (outerLoop det ts is (group ++ processed')).map (group :: ·)
            else outerLoop det ts is processed'

/-- Embedding of `find_duplicates`: index groups of near-duplicates. -/
def findDuplicates (det : DuplicateDetector) (ts : List Tweet) :
    Option (List (List Nat)) :=
  outerLoop det ts (List.range ts.length) []

/-- The fold of `min(group, key=lambda i: tweets[i].date)`: keep the
current best and replace it only on a strictly earlier date, so the first
of several minimal elements wins; a naive/aware comparison raises
(`none`). -/
def pyMinGo (ts : List Tweet) : Nat → List Nat → Option Nat
  | best, [] => some best
  | best, x :: rest =>
      match dateLt (tweetAt ts x).date (tweetAt ts best).date with
      | none => none
      | some true => pyMinGo ts x rest
      | some false => pyMinGo ts best rest

def pyMinByDate (ts : List Tweet) : List Nat → Option Nat
  | [] => none
  | g0 :: rest => pyMinGo ts g0 rest

/-- The indices removed by `remove_duplicates`: every group member except
the earliest-dated one (first position on ties). -/
def removedIndices (ts : List Tweet) : List (List Nat) → Option (List Nat)
  | [] => some []
  | g :: rest => do
      let k ← pyMinByDate ts g
      let r ← removedIndices ts rest
      pure (g.filter (fun x => x ≠ k) ++ r)

/-- Embedding of `remove_duplicates`: the kept tweets in original order and
the duplicate groups as tweet objects. -/
def removeDuplicates (det : DuplicateDetector) (ts : List Tweet) :
    Option (List Tweet × List (List Tweet)) :=
  if ts.isEmpty then some ([], [])
  else do
    let gs ← findDuplicates det ts
    let dgroups := gs.map (fun g => g.map (tweetAt ts))
    let removed ← removedIndices ts gs
    let keep := (List.range ts.length).filter (fun i => !removed.contains i)
    pure (keep.map (tweetAt ts), dgroups)

structure GroupDetail where
  group_id : Nat
  duplicate_count : Nat
  kept_tweet : String
  removed_tweets : List String
  deriving Repr, DecidableEq

structure Report where
  original_count : Nat
  cleaned_count : Nat
  removed_count : Int
  duplicate_groups : Nat
  duplicate_details : List GroupDetail
  deriving Repr, DecidableEq

/-- One entry of `duplicate_details`: the first group member is rendered as
the kept tweet, the rest as removed. -/
def groupDetailOf (idx : Nat) (g : List Tweet) : GroupDetail :=
  { group_id := idx
    duplicate_count := g.length
    kept_tweet := (g.headD dummyTweet).render
    removed_tweets := (g.drop 1).map Tweet.render }

/-- Embedding of `generate_report` (the optional JSON dump is file output
and carries the same record). -/
def generateReport (originalCount : Nat) (cleaned : List Tweet)
    (dgroups : List (List Tweet)) : Report :=
  { original_count := originalCount
    cleaned_count := cleaned.length
    removed_count := (originalCount : Int) - cleaned.length
    duplicate_groups := dgroups.length
    duplicate_details := dgroups.enum.map fun p => groupDetailOf (p.1 + 1) p.2 }

/-! Persistence: the exact file contents written by `save_cleaned_tweets`
and the line loop of `load_from_file` applied to file contents. -/

def sep80 : String := ⟨List.replicate 80 '='⟩

/-- The characters written for one tweet by `save_cleaned_tweets`. -/
def tweetBlock (idx : Nat) (t : Tweet) : String :=
  "TWEET " ++ natToString idx ++ "\n" ++
  "Date: " ++ t.date.isoformat ++ "\n" ++
  "REPLY TO: " ++ t.reply_to ++ "\n" ++
  "CONTENT:\n" ++
  t.content ++ "\n" ++
  (if t.urls.isEmpty then ""
   else "\nURLS:\n" ++ String.join (t.urls.map (fun u => "- " ++ u ++ "\n"))) ++
  "\n" ++ sep80 ++ "\n\n"

def tweetBlocks (startIdx : Nat) : List Tweet → String
  | [] => ""
  | t :: rest => tweetBlock startIdx t ++ tweetBlocks (startIdx + 1) rest

/-- Embedding of `save_cleaned_tweets`: the complete file contents. -/
def saveCleanedTweets (ts : List Tweet) : String :=
  "CLEANED TWEETS - DUPLICATES REMOVED\n" ++
  "Total tweets: " ++ natToString ts.length ++ "\n" ++
  sep80 ++ "\n\n" ++
  tweetBlocks 1 ts

/-- The accumulator dictionary `current_tweet` of `load_from_file`; an
absent key is `none` (the code distinguishes absent from present-empty for
`urls`). -/
structure LoadState where
  date : Option String
  reply_to : Option String
  content : Option String
  urls : Option (List String)
  deriving Repr, DecidableEq

def initLoadState : LoadState := ⟨none, none, none, none⟩

/-- The flush `tweets.append(Tweet(...))` guarded by
`current_tweet and 'content' in current_tweet`. -/
def flushState (st : LoadState) (now : PyDatetime) : List Tweet :=
  if st.content.isSome then
    [Tweet.make (st.date.getD "") (st.content.getD "") (st.reply_to.getD "")
      (st.urls.getD []) now]
  else []

/-- One iteration of the line loop of `load_from_file`, on the stripped
line; returns the next state and the tweets emitted by this line. -/
def loadStep (now : PyDatetime) (st : LoadState) (line : List Char) :
    LoadState × List Tweet :=
  if startsWithL "Date:".data line then
    (⟨some ⟨pyStripL (line.drop 6)⟩, none, none, none⟩, flushState st now)
  else if startsWithL "REPLY TO:".data line then
    ({ st with reply_to := some ⟨pyStripL (line.drop 10)⟩ }, [])
  else if line = "CONTENT:".data then (st, [])
  else if startsWithL "URLS:".data line then (st, [])
  else if startsWithL "http".data line && st.urls.isNone then
    ({ st with urls := some [⟨line⟩] }, [])
  else if startsWithL "- http".data line then
    ({ st with urls := some (st.urls.getD [] ++ [⟨line.drop 2⟩]) }, [])
  else if line ≠ [] && !containsChar line '=' && !isSubL "TWEET".data line &&
      !isSubL "Archive".data line then
    (match st.content with
     | none => { st with content := some ⟨line⟩ }
     | some c => { st with content := some (c ++ " " ++ (⟨line⟩ : String)) },
     [])
  else (st, [])

/-- The line loop followed by the final flush. -/
def loadLinesGo (now : PyDatetime) : List String → LoadState → List Tweet
  | [], st => flushState st now
  | l :: rest, st =>
      let step := loadStep now st (pyStripL l.data)
      step.2 ++ loadLinesGo now rest step.1

/-- Embedding of `load_from_file` applied to file contents (the I/O failure
path prints an error and returns the empty list; claims about it are
stated through `mainRun`). -/
def loadFromFile (contents : String) (now : PyDatetime) : List Tweet :=
  loadLinesGo now (splitNl contents.data []) initLoadState

/-! The standalone `main` of the module, as a pure outcome model. -/

structure MainOutcome where
  exitCode : Nat
  errorReported : Bool
  wroteOutput : Bool
  wroteReport : Bool
  deriving Repr, DecidableEq

/-- Embedding of the control flow of `main`.  `inputExists` is the
`os.path.exists` test; `fileContents` is `some` contents for a readable
file and `none` for an unreadable one (whose read error `load_from_file`
catches, prints and turns into an empty list).  The function returns with
`return` in every early branch and never calls `sys.exit`, so the process
exit status is 0 on those paths; an uncaught exception inside duplicate
detection would end the process with status 1 before any file is
written. -/
def mainRun (inputExists : Bool) (fileContents : Option String)
    (writeOutput writeReport : Bool) (threshold : ℚ) (windowHours : Nat)
    (now : PyDatetime) : MainOutcome :=
  if !inputExists then
    { exitCode := 0, errorReported := true
      wroteOutput := false, wroteReport := false }
  else
    let tweets := match fileContents with
      | none => []
      | some s => loadFromFile s now
    if tweets.isEmpty then
      { exitCode := 0, errorReported := true
        wroteOutput := false, wroteReport := false }
    else
      match removeDuplicates (DuplicateDetector.make threshold windowHours)
          tweets with
      | none =>
          { exitCode := 1, errorReported := true
            wroteOutput := false, wroteReport := false }
      | some _ =>
          { exitCode := 0, errorReported := false
            wroteOutput := writeOutput, wroteReport := writeReport }

/-! Concrete inputs used by the claim witnesses and counterexamples. -/

/-- A fixed stand-in for `datetime.now()`; none of the evaluated scenarios
reaches the current-time fallback except where stated. -/
def now0 : PyDatetime := ⟨2020, 1, 1, 0, 0, 0, 0, none⟩

/-- Scenario records for the chain claim: `tB` is a substring of both `tA`
and `tC`, so both pairs clear the 0.85 threshold through the substring
floor, while `tA` against `tC` scores 5/6 < 0.85. -/
def tA : Tweet := Tweet.make "2024-05-01" "xxxxxa" "" [] now0

def tB : Tweet := Tweet.make "2024-05-01" "xxxxx" "" [] now0

def tC : Tweet := Tweet.make "2024-05-01" "bxxxxx" "" [] now0

/-- Two identical texts a day apart, the later one first in input order:
the anchor of the cluster is not its earliest member. -/
def u0 : Tweet := Tweet.make "2024-05-02" "hello world" "" [] now0

def u1 : Tweet := Tweet.make "2024-05-01" "hello world" "" [] now0

/-- A UTC-marked combined date-and-time next to a plain calendar date: the
constructor parses the first as aware and the second as naive. -/
def z0 : Tweet := Tweet.make "2024-01-31T10:46:43.000Z" "hello" "" [] now0

def z1 : Tweet := Tweet.make "2024-01-31" "hello" "" [] now0

/-- A record whose normalised content contains an equals sign: the loader
line filter drops it on re-reading. -/
def w0 : Tweet := Tweet.make "2024-05-01" "a=b" "" [] now0

/-- A record that survives the round trip. -/
def v0 : Tweet :=
  Tweet.make "2024-05-01" "plain text body" "" ["http://x.yz/1"] now0

/-- No newline character occurs in the string. -/
def noNewline (s : String) : Bool := !containsChar s.data '\n'

/-- The conditions under which one content line written by
`save_cleaned_tweets` passes the line filters of `load_from_file` and is
taken up as content: it is a single non-empty line, hits none of the
keyword branches, and contains none of the filtered substrings. -/
def loaderBenign (c : String) : Bool :=
  noNewline c && c ≠ "" &&
  !startsWithL "Date:".data c.data &&
  !startsWithL "REPLY TO:".data c.data &&
  c.data ≠ "CONTENT:".data &&
  !startsWithL "URLS:".data c.data &&
  !startsWithL "http".data c.data &&
  !startsWithL "- http".data c.data &&
  !containsChar c.data '=' &&
  !isSubL "TWEET".data c.data &&
  !isSubL "Archive".data c.data

/-- A URL list acceptable to the loader: every entry is a single stripped
line starting with `http`, so its saved form `- url` is parsed back as a
URL rather than appended to the content. -/
def loaderBenignUrls (urls : List String) : Bool :=
  urls.all fun u =>
    noNewline u && startsWithL "http".data u.data && pyStrip u == u

/-- The lines of the file section written for one tweet by
`save_cleaned_tweets` (the serialisation writes each of these followed by a
newline). -/
def tweetLines (idx : Nat) (t : Tweet) : List String :=
  ["TWEET " ++ natToString idx, "Date: " ++ t.date.isoformat,
   "REPLY TO: " ++ t.reply_to, "CONTENT:", t.content] ++
  (if t.urls.isEmpty then []
   else "" :: "URLS:" :: t.urls.map (fun u => "- " ++ u)) ++
  ["", sep80, ""]

/-- The lines of all tweet sections in sequence. -/
def blocksLines (idx : Nat) : List Tweet → List String
  | [] => []
  | t :: rest => tweetLines idx t ++ blocksLines (idx + 1) rest

/-- The conditions under which a record written by `save_cleaned_tweets`
comes back from `load_from_file` with its comparison text intact: benign
single-line content that is a fixed point of normalisation, a stripped
single-line reply field, and loader-recognised URLs. -/
def roundTripSafe (t : Tweet) : Prop :=
  loaderBenign t.content = true ∧
  normalizeContent t.content = t.content ∧
  noNewline t.reply_to = true ∧ pyStrip t.reply_to = t.reply_to ∧
  loaderBenignUrls t.urls = true

instance (t : Tweet) : Decidable (roundTripSafe t) := by
  unfold roundTripSafe
  infer_instance

/-- No position of the list carries `@` immediately followed by a word
character; equivalently the regex `@\w+` has no match.  The output of
mention removal always satisfies this, which drives the idempotence
analysis of normalisation. -/
def noMentionStart : List Char → Bool
  | a :: b :: t => !(a = '@' && isWordChar b) && noMentionStart (b :: t)
  | _ => true

/-- Every whitespace character is a plain space and no two adjacent
characters are both whitespace; the output of whitespace collapsing always
satisfies this. -/
def wsCollapsed : List Char → Bool
  | [] => true
  | [c] => !pyIsSpace c || c = ' '
  | a :: b :: t =>
      (!pyIsSpace a || a = ' ') && !(pyIsSpace a && pyIsSpace b) &&
        wsCollapsed (b :: t)

/-- The two anchor-relative tests that admit candidate `x` into the cluster
seeded by anchor `a`: dates within the window and similarity at or above
the threshold. -/
def anchorOk (det : DuplicateDetector) (ts : List Tweet) (a x : Nat) : Prop :=
  areDatesClose det (tweetAt ts a).date (tweetAt ts x).date = some true ∧
  det.content_threshold ≤
    calculateContentSimilarity (tweetAt ts a).content (tweetAt ts x).content

/-! Claim theorems.  Each claim of the specification audit is settled by
exactly one theorem below, with a witness instantiation where the theorem
carries hypotheses and a concrete counterexample where the original claim
fails on the code. -/

/-- Claim C4, counterexample: the similarity function is not symmetric.
The difflib ratio depends on the argument order through the tie-breaking
of `find_longest_match`; on the pair `tide`/`diet` it returns 1/4 one way
and 1/2 the other, and neither string is a substring of the other, so
`calculate_content_similarity` inherits the asymmetry. -/
theorem C4_similarity_symmetry_counterexample :
    calculateContentSimilarity "tide" "diet" = Rat.divInt 1 4 ∧
    calculateContentSimilarity "diet" "tide" = Rat.divInt 1 2 ∧
    calculateContentSimilarity "tide" "diet" ≠
      calculateContentSimilarity "diet" "tide" := by decide

/-- Claim C4, amended: `calculate_content_similarity(a, b)` equals
`calculate_content_similarity(b, a)` whenever the two inputs are equal or
either input is empty; for distinct non-empty inputs the two orders can
differ (see the counterexample). -/
theorem C4_similarity_symmetric_on_equal_or_empty (a b : String)
    (h : a = b ∨ a = "" ∨ b = "") :
    calculateContentSimilarity a b = calculateContentSimilarity b a := by
  rcases h with h | h | h
  · subst h; rfl
  · subst h
    unfold calculateContentSimilarity
    simp
  · subst h
    unfold calculateContentSimilarity
    simp

/-- Witness for the amended claim C4 at a concrete input. -/
theorem C4_similarity_symmetric_witness :
    calculateContentSimilarity "ab" "" = calculateContentSimilarity "" "ab" :=
  C4_similarity_symmetric_on_equal_or_empty "ab" "" (Or.inr (Or.inr rfl))

/-- Claim C8, counterexample: quantified over every string `b`, the
substring-floor claim fails at `b = ""`.  The empty string is a Python
substring of `"x"`, yet the empty-input guard returns 0 < 0.9; moreover on
two empty inputs the base sequence-matcher ratio is 1 while the function
returns 0, so the returned score is not always at least the base ratio. -/
theorem C8_substring_floor_counterexample :
    isSub "" "x" = true ∧
    calculateContentSimilarity "x" "" = 0 ∧
    ¬ Rat.divInt 9 10 ≤ calculateContentSimilarity "x" "" ∧
    smRatio "" "" = 1 ∧
    calculateContentSimilarity "" "" = 0 := by decide

/-- Claim C8, amended: for non-empty `a` and non-empty `b`, a substring
relation in either direction forces a similarity of at least 0.9, and the
returned score is never below the base sequence-matcher ratio (the
override is a floor, never a ceiling). -/
theorem C8_substring_floor_amended (a b : String) (ha : a ≠ "")
    (hb : b ≠ "") :
    ((isSub a b = true ∨ isSub b a = true) →
      Rat.divInt 9 10 ≤ calculateContentSimilarity a b) ∧
    smRatio a b ≤ calculateContentSimilarity a b := by
  unfold calculateContentSimilarity
  rw [if_neg (by simp [ha, hb])]
  constructor
  · intro hsub
    have hor : (isSub a b || isSub b a) = true := by
      rcases hsub with h | h <;> simp [h]
    rw [if_pos hor]
    exact le_max_right _ _
  · by_cases hs : (isSub a b || isSub b a) = true
    · rw [if_pos hs]
      exact le_max_left _ _
    · rw [if_neg hs]

/-- Witness for the amended claim C8 at a concrete input. -/
theorem C8_substring_floor_witness :
    ((isSub "x" "xy" = true ∨ isSub "xy" "x" = true) →
      Rat.divInt 9 10 ≤ calculateContentSimilarity "x" "xy") ∧
    smRatio "x" "xy" ≤ calculateContentSimilarity "x" "xy" :=
  C8_substring_floor_amended "x" "xy" (by decide) (by decide)

/-- Claim C2, counterexample: on a missing input path `main` prints the
error and returns normally without `sys.exit`, so the process terminates
with exit status 0, not the claimed non-zero status; no output file is
written. -/
theorem C2_exit_status_counterexample :
    mainRun false none true true (Rat.divInt 17 20) 24 now0 =
      { exitCode := 0, errorReported := true
        wroteOutput := false, wroteReport := false } := by decide

/-- Claim C2, amended: when the positional input path does not exist the
program reports the error, writes no output files, and terminates with
exit status 0 (normal termination, since `main` returns without calling
`sys.exit`); the same outcome arises for an unreadable file, whose read
error is caught inside `load_from_file`. -/
theorem C2_missing_input_behaviour (contents : Option String)
    (writeOutput writeReport : Bool) (threshold : ℚ) (hours : Nat)
    (now : PyDatetime) :
    mainRun false contents writeOutput writeReport threshold hours now =
      { exitCode := 0, errorReported := true
        wroteOutput := false, wroteReport := false } ∧
    mainRun true none writeOutput writeReport threshold hours now =
      { exitCode := 0, errorReported := true
        wroteOutput := false, wroteReport := false } := by
  constructor <;> rfl

/-- Claim C6: evaluation at the failing input.  A tweet built from the
UTC-marked string `2024-01-31T10:46:43.000Z` carries an aware datetime
while one built from `2024-01-31` carries a naive one; subtracting them
raises `TypeError` (modelled as `none`), so `are_dates_close` does not
return a boolean and `find_duplicates` aborts on the batch of the two. -/
theorem C6_mixed_datetime_raises :
    z0.date.aware = true ∧ z1.date.aware = false ∧
    areDatesClose defaultDetector z0.date z1.date = none ∧
    findDuplicates defaultDetector [z0, z1] = none := by decide

/-- Claim C1, counterexample: three records with the chain profile of
Scenario C (anchor-to-second and second-to-third similarities at or above
the 0.85 threshold, anchor-to-third below it, all dates pairwise within
the window) do NOT form one cluster of all three.  The scan only compares
candidates against the anchor A, so `find_duplicates` emits the single
cluster of A and B while C stays unclustered; resolution keeps A and C. -/
theorem C1_chain_cluster_counterexample :
    defaultDetector.content_threshold ≤
      calculateContentSimilarity tA.content tB.content ∧
    defaultDetector.content_threshold ≤
      calculateContentSimilarity tB.content tC.content ∧
    calculateContentSimilarity tA.content tC.content <
      defaultDetector.content_threshold ∧
    areDatesClose defaultDetector tA.date tB.date = some true ∧
    areDatesClose defaultDetector tA.date tC.date = some true ∧
    areDatesClose defaultDetector tB.date tC.date = some true ∧
    findDuplicates defaultDetector [tA, tB, tC] = some [[0, 1]] ∧
    removeDuplicates defaultDetector [tA, tB, tC] =
      some ([tA, tC], [[tA, tB]]) := by decide

/-- Claim C1, amended: for three records A, B, C processed in that input
order, all pairwise within the date window, with similarity(A,B) and
similarity(B,C) at or above the threshold but similarity(A,C) below it,
`find_duplicates` emits exactly one cluster containing A and B only
(membership is checked against the anchor A, so C is never clustered), and
resolution keeps A (being no later than B) as well as the unclustered C. -/
theorem C1_chain_one_cluster_of_two (t0 t1 t2 : Tweet)
    (h01 : areDatesClose defaultDetector t0.date t1.date = some true)
    (h02 : areDatesClose defaultDetector t0.date t2.date = some true)
    (_h12 : areDatesClose defaultDetector t1.date t2.date = some true)
    (s01 : defaultDetector.content_threshold ≤
      calculateContentSimilarity t0.content t1.content)
    (_s12 : defaultDetector.content_threshold ≤
      calculateContentSimilarity t1.content t2.content)
    (s02 : ¬ defaultDetector.content_threshold ≤
      calculateContentSimilarity t0.content t2.content)
    (hd : dateLt t1.date t0.date = some false) :
    findDuplicates defaultDetector [t0, t1, t2] = some [[0, 1]] ∧
    removeDuplicates defaultDetector [t0, t1, t2] =
      some ([t0, t2], [[t0, t1]]) := by
  have g0 : tweetAt [t0, t1, t2] 0 = t0 := rfl
  have g1 : tweetAt [t0, t1, t2] 1 = t1 := rfl
  have g2 : tweetAt [t0, t1, t2] 2 = t2 := rfl
  have e : findDuplicates defaultDetector [t0, t1, t2] = some [[0, 1]] := by
    show outerLoop defaultDetector [t0, t1, t2] [0, 1, 2] [] = some [[0, 1]]
    simp [outerLoop, innerLoop, g0, g1, g2, h01, h02, s01, s02, hd]
  refine ⟨e, ?_⟩
  unfold removeDuplicates
  rw [show ([t0, t1, t2].isEmpty) = false from rfl]
  simp only [Bool.false_eq_true, if_false, e, Option.bind_eq_bind,
    Option.some_bind, removedIndices, pyMinByDate, pyMinGo, g0, g1, hd]
  simp [List.filter, List.range, tweetAt, g0, g2]

/-- Witness for the amended claim C1 at the concrete Scenario C records. -/
theorem C1_chain_one_cluster_witness :
    findDuplicates defaultDetector [tA, tB, tC] = some [[0, 1]] ∧
    removeDuplicates defaultDetector [tA, tB, tC] =
      some ([tA, tC], [[tA, tB]]) :=
  C1_chain_one_cluster_of_two tA tB tC (by decide) (by decide) (by decide)
    (by decide) (by decide) (by decide) (by decide)



/-! Helper lemmas: dates, the Python minimum fold, and the clustering
invariants.  These are shared infrastructure for several claim theorems. -/

/-- A successful `are_dates_close` comparison forces equal awareness. -/
theorem areDatesClose_aware {det : DuplicateDetector} {d1 d2 : PyDatetime}
    {b : Bool} (h : areDatesClose det d1 d2 = some b) :
    d1.aware = d2.aware := by
  by_cases hA : d1.aware = d2.aware
  · exact hA
  · unfold areDatesClose dsub at h
    rw [if_neg hA] at h
    simp at h

/-- On equally aware datetimes the Python order test computes the sign of
the effective-instant difference. -/
theorem dateLt_of_aware {d1 d2 : PyDatetime} (h : d1.aware = d2.aware) :
    dateLt d1 d2 =
      some (decide (d1.effectiveMicros < d2.effectiveMicros)) := by
  unfold dateLt dsub
  rw [if_pos h]
  simp only [Option.map_some']
  exact congrArg some (decide_eq_decide.mpr sub_neg)

/-- On equally aware datetimes the non-strict Python order test computes
the sign of the effective-instant difference. -/
theorem dateLe_of_aware {d1 d2 : PyDatetime} (h : d1.aware = d2.aware) :
    dateLe d1 d2 =
      some (decide (d1.effectiveMicros ≤ d2.effectiveMicros)) := by
  unfold dateLe dsub
  rw [if_pos h]
  simp only [Option.map_some']
  exact congrArg some (decide_eq_decide.mpr sub_nonpos)

/-- Splitting characterisation of the fold behind
`min(group, key=lambda i: tweets[i].date)`: on a group of equally aware
members the fold succeeds and returns the first member attaining the
minimal effective instant — every member strictly before it in the list is
strictly later in time, every member after it is no earlier. -/
theorem pyMinGo_split (ts : List Tweet) :
    ∀ (rest : List Nat) (best : Nat),
      (∀ x ∈ rest, (tweetAt ts x).date.aware =
        (tweetAt ts best).date.aware) →
      ∃ l1 k l2, best :: rest = l1 ++ k :: l2 ∧
        pyMinGo ts best rest = some k ∧
        (∀ x ∈ l1, (tweetAt ts k).date.effectiveMicros <
          (tweetAt ts x).date.effectiveMicros) ∧
        (∀ x ∈ l2, (tweetAt ts k).date.effectiveMicros ≤
          (tweetAt ts x).date.effectiveMicros) := by
  intro rest
  induction rest with
  | nil =>
      intro best _
      exact ⟨[], best, [], rfl, rfl, by simp, by simp⟩
  | cons x r ih =>
      intro best hA
      have hxb : (tweetAt ts x).date.aware = (tweetAt ts best).date.aware :=
        hA x (by simp)
      have hr : ∀ y ∈ r, (tweetAt ts y).date.aware =
          (tweetAt ts best).date.aware :=
        fun y hy => hA y (by simp [hy])
      rw [show pyMinGo ts best (x :: r) =
        (match dateLt (tweetAt ts x).date (tweetAt ts best).date with
        | none => none
        | some true => pyMinGo ts x r
        | some false => pyMinGo ts best r) from rfl]
      rw [dateLt_of_aware hxb]
      by_cases hlt : (tweetAt ts x).date.effectiveMicros <
          (tweetAt ts best).date.effectiveMicros
      · rw [decide_eq_true hlt]
        have hr' : ∀ y ∈ r, (tweetAt ts y).date.aware =
            (tweetAt ts x).date.aware :=
          fun y hy => (hr y hy).trans hxb.symm
        obtain ⟨l1, k, l2, hsplit, hrun, hstrict, hle⟩ := ih x hr'
        have hkx : (tweetAt ts k).date.effectiveMicros ≤
            (tweetAt ts x).date.effectiveMicros := by
          rcases l1 with _ | ⟨z, l1t⟩
          · simp only [List.nil_append] at hsplit
            obtain ⟨h1, _⟩ := List.cons_eq_cons.mp hsplit
            rw [← h1]
          · obtain ⟨h1, _⟩ := List.cons_eq_cons.mp hsplit
            exact le_of_lt (h1 ▸ hstrict z (by simp))
        refine ⟨best :: l1, k, l2, by simp [hsplit], hrun, ?_, hle⟩
        intro y hy
        rcases List.mem_cons.mp hy with hy | hy
        · subst hy
          exact lt_of_le_of_lt hkx hlt
        · exact hstrict y hy
      · rw [decide_eq_false hlt]
        push_neg at hlt
        obtain ⟨l1, k, l2, hsplit, hrun, hstrict, hle⟩ := ih best hr
        rcases l1 with _ | ⟨z, l1t⟩
        · simp only [List.nil_append] at hsplit
          obtain ⟨h1, h2⟩ := List.cons_eq_cons.mp hsplit
          refine ⟨[], k, x :: l2, by rw [h1, h2]; rfl, hrun, by simp, ?_⟩
          intro y hy
          rcases List.mem_cons.mp hy with hy | hy
          · subst hy
            rw [← h1]
            exact hlt
          · exact hle y hy
        · obtain ⟨h1, h2⟩ := List.cons_eq_cons.mp hsplit
          refine ⟨best :: x :: l1t, k, l2, by simp [h2], hrun, ?_, hle⟩
          have hkbest : (tweetAt ts k).date.effectiveMicros <
              (tweetAt ts best).date.effectiveMicros :=
            h1 ▸ hstrict z (by simp)
          intro y hy
          rcases List.mem_cons.mp hy with hy | hy
          · subst hy
            exact hkbest
          · rcases List.mem_cons.mp hy with hy | hy
            · subst hy
              exact lt_of_lt_of_le hkbest hlt
            · exact hstrict y (by simp [hy])

/-- Invariant of the candidate scan: a successful inner loop extends the
group by a sublist `delta` of the scanned indices, marks exactly those
indices processed, and admits each of them through the two anchor-relative
tests. -/
theorem innerLoop_spec (det : DuplicateDetector) (ts : List Tweet) (i : Nat) :
    ∀ (js processed group gout pout : List Nat),
      innerLoop det ts i js processed group = some (gout, pout) →
      ∃ delta, gout = group ++ delta ∧ delta.Sublist js ∧
        (∀ x, x ∈ pout ↔ x ∈ processed ∨ x ∈ delta) ∧
        (∀ x ∈ delta, x ∉ processed ∧ anchorOk det ts i x) := by
  intro js
  induction js with
  | nil =>
      intro processed group gout pout h
      simp only [innerLoop, Option.some.injEq, Prod.mk.injEq] at h
      obtain ⟨h1, h2⟩ := h
      subst h1
      subst h2
      exact ⟨[], by simp, List.nil_sublist _, fun x => by simp, by simp⟩
  | cons j js ih =>
      intro processed group gout pout h
      rw [show innerLoop det ts i (j :: js) processed group =
        (if j ∈ processed then innerLoop det ts i js processed group
         else
          match areDatesClose det (tweetAt ts i).date (tweetAt ts j).date with
          | none => none
          | some false => innerLoop det ts i js processed group
          | some true =>
              if det.content_threshold ≤
                  calculateContentSimilarity (tweetAt ts i).content
                    (tweetAt ts j).content then
                innerLoop det ts i js (j :: processed) (group ++ [j])
              else innerLoop det ts i js processed group) from rfl] at h
      by_cases hj : j ∈ processed
      · rw [if_pos hj] at h
        obtain ⟨delta, h1, h2, h3, h4⟩ := ih processed group gout pout h
        exact ⟨delta, h1, h2.cons j, h3, h4⟩
      · rw [if_neg hj] at h
        cases hdc : areDatesClose det (tweetAt ts i).date (tweetAt ts j).date
          with
        | none => rw [hdc] at h; simp at h
        | some b =>
            rw [hdc] at h
            cases b with
            | false =>
                obtain ⟨delta, h1, h2, h3, h4⟩ := ih processed group gout pout h
                exact ⟨delta, h1, h2.cons j, h3, h4⟩
            | true =>
                by_cases hsim : det.content_threshold ≤
                    calculateContentSimilarity (tweetAt ts i).content
                      (tweetAt ts j).content
                · rw [if_pos hsim] at h
                  obtain ⟨delta, h1, h2, h3, h4⟩ :=
                    ih (j :: processed) (group ++ [j]) gout pout h
                  refine ⟨j :: delta, by simpa using h1,
                    List.cons_sublist_cons.mpr h2, fun x => ?_, ?_⟩
                  · rw [h3 x]
                    simp only [List.mem_cons]
                    tauto
                  · intro x hx
                    rcases List.mem_cons.mp hx with hx | hx
                    · subst hx
                      exact ⟨hj, hdc, hsim⟩
                    · obtain ⟨hnp, hok⟩ := h4 x hx
                      exact ⟨fun hc => hnp (by simp [hc]), hok⟩
                · rw [if_neg hsim] at h
                  obtain ⟨delta, h1, h2, h3, h4⟩ := ih processed group gout pout h
                  exact ⟨delta, h1, h2.cons j, h3, h4⟩

/-- Invariant of the outer clustering pass: every emitted group consists of
an anchor followed by a non-empty run of candidates admitted against that
anchor, is a sublist of the scanned index list, avoids the incoming
processed set, and the emitted groups are pairwise disjoint. -/
theorem outerLoop_spec (det : DuplicateDetector) (ts : List Tweet) :
    ∀ (is processed : List Nat) (gs : List (List Nat)),
      outerLoop det ts is processed = some gs →
      (∀ g ∈ gs, ∃ a delta, g = a :: delta ∧ delta ≠ [] ∧ g.Sublist is ∧
        (∀ x ∈ g, x ∉ processed) ∧ (∀ x ∈ delta, anchorOk det ts a x)) ∧
      List.Pairwise (fun g1 g2 => ∀ x ∈ g1, x ∉ g2) gs := by
  intro is
  induction is with
  | nil =>
      intro processed gs h
      simp only [outerLoop, Option.some.injEq] at h
      subst h
      exact ⟨by simp, List.Pairwise.nil⟩
  | cons i is ih =>
      intro processed gs h
      rw [show outerLoop det ts (i :: is) processed =
        (if i ∈ processed then outerLoop det ts is processed
         else
          match innerLoop det ts i is processed [i] with
          | none => none
          | some (group, processed') =>
              if 1 < group.length then
                (outerLoop det ts is (group ++ processed')).map (group :: ·)
              else outerLoop det ts is processed') from rfl] at h
      by_cases hi : i ∈ processed
      · rw [if_pos hi] at h
        obtain ⟨H1, H2⟩ := ih processed gs h
        refine ⟨fun g hg => ?_, H2⟩
        obtain ⟨a, delta, hga, hne, hsub, hnp, hok⟩ := H1 g hg
        exact ⟨a, delta, hga, hne, hsub.cons i, hnp, hok⟩
      · rw [if_neg hi] at h
        cases hin : innerLoop det ts i is processed [i] with
        | none => rw [hin] at h; simp at h
        | some gp =>
            obtain ⟨group, processed'⟩ := gp
            rw [hin] at h
            dsimp only at h
            obtain ⟨delta, hge, hdsub, hpiff, hdcond⟩ :=
              innerLoop_spec det ts i is processed [i] group processed' hin
            by_cases hlen : 1 < group.length
            · rw [if_pos hlen] at h
              cases hrec : outerLoop det ts is (group ++ processed') with
              | none => rw [hrec] at h; simp at h
              | some gs' =>
                  rw [hrec] at h
                  simp only [Option.map_some', Option.some.injEq] at h
                  subst h
                  obtain ⟨H1, H2⟩ := ih (group ++ processed') gs' hrec
                  have hdne : delta ≠ [] := by
                    intro hd
                    rw [hge, hd] at hlen
                    simp at hlen
                  have hgmem : ∀ x ∈ group, x ∉ processed := by
                    intro x hx
                    rw [hge] at hx
                    rcases List.mem_append.mp hx with hx | hx
                    · simp at hx
                      subst hx
                      exact hi
                    · exact (hdcond x hx).1
                  constructor
                  · intro g hg
                    rcases List.mem_cons.mp hg with hg | hg
                    · subst hg
                      refine ⟨i, delta, by simpa using hge, hdne, ?_, hgmem,
                        fun x hx => (hdcond x hx).2⟩
                      rw [hge]
                      exact List.cons_sublist_cons.mpr hdsub
                    · obtain ⟨a, d2, hga, hne2, hsub2, hnp2, hok2⟩ := H1 g hg
                      refine ⟨a, d2, hga, hne2, hsub2.cons i,
                        fun x hx hxp => ?_, hok2⟩
                      exact hnp2 x hx (List.mem_append.mpr
                        (Or.inr ((hpiff x).mpr (Or.inl hxp))))
                  · refine List.Pairwise.cons ?_ H2
                    intro g' hg' x hx hxg'
                    obtain ⟨a, d2, hga, hne2, hsub2, hnp2, hok2⟩ := H1 g' hg'
                    exact hnp2 x hxg' (List.mem_append.mpr (Or.inl hx))
            · rw [if_neg hlen] at h
              obtain ⟨H1, H2⟩ := ih processed' gs h
              have hde : delta = [] := by
                rcases delta with _ | ⟨d, ds⟩
                · rfl
                · exfalso
                  apply hlen
                  rw [hge]
                  simp
              refine ⟨fun g hg => ?_, H2⟩
              obtain ⟨a, d2, hga, hne2, hsub2, hnp2, hok2⟩ := H1 g hg
              refine ⟨a, d2, hga, hne2, hsub2.cons i, fun x hx hxp => ?_, hok2⟩
              exact hnp2 x hx ((hpiff x).mpr (Or.inl hxp))

/-- Evaluation of the removal fold of `remove_duplicates` over pairwise
disjoint groups, each with a computed minimum: it succeeds, the removed
set draws only from the groups, and each group contributes exactly its
non-minimal members. -/
theorem removedIndices_spec (ts : List Tweet) :
    ∀ (gs : List (List Nat)),
      (∀ g ∈ gs, ∃ k, pyMinByDate ts g = some k ∧ k ∈ g) →
      List.Pairwise (fun g1 g2 => ∀ x ∈ g1, x ∉ g2) gs →
      ∃ R, removedIndices ts gs = some R ∧
        (∀ x ∈ R, ∃ g ∈ gs, x ∈ g) ∧
        ∀ g ∈ gs, ∀ k, pyMinByDate ts g = some k →
          k ∉ R ∧ ∀ j ∈ g, j ≠ k → j ∈ R := by
  intro gs
  induction gs with
  | nil =>
      intro _ _
      exact ⟨[], rfl, by simp, by simp⟩
  | cons g gs ih =>
      intro hmin hpw
      obtain ⟨k0, hk0, hk0mem⟩ := hmin g (by simp)
      obtain ⟨R', hR', hdom, hspec⟩ :=
        ih (fun g' hg' => hmin g' (by simp [hg'])) hpw.of_cons
      have hdisj : ∀ x ∈ g, ∀ g' ∈ gs, x ∉ g' := by
        intro x hx g' hg'
        exact (List.pairwise_cons.mp hpw).1 g' hg' x hx
      refine ⟨g.filter (fun x => x ≠ k0) ++ R', ?_, ?_, ?_⟩
      · have hred : removedIndices ts (g :: gs) =
            (pyMinByDate ts g).bind fun k =>
              (removedIndices ts gs).bind fun r =>
                some (g.filter (fun x => x ≠ k) ++ r) := rfl
        rw [hred, hk0, hR']
        rfl
      · intro x hx
        rcases List.mem_append.mp hx with hx | hx
        · exact ⟨g, by simp, (List.mem_filter.mp hx).1⟩
        · obtain ⟨g', hg', hxg'⟩ := hdom x hx
          exact ⟨g', by simp [hg'], hxg'⟩
      · intro g' hg' k hk
        rcases List.mem_cons.mp hg' with hg' | hg'
        · subst hg'
          rw [hk0] at hk
          injection hk with hk
          subst hk
          constructor
          · intro hkR
            rcases List.mem_append.mp hkR with hin | hin
            · have := (List.mem_filter.mp hin).2
              simp at this
            · obtain ⟨g'', hg'', hkg''⟩ := hdom k0 hin
              exact hdisj k0 hk0mem g'' hg'' hkg''
          · intro j hj hjk
            exact List.mem_append.mpr (Or.inl
              (List.mem_filter.mpr ⟨hj, by simpa using hjk⟩))
        · obtain ⟨hkR', hrem⟩ := hspec g' hg' k hk
          have hkg' : k ∈ g' := by
            obtain ⟨k', hk', hk'mem⟩ := hmin g' (by simp [hg'])
            rw [hk] at hk'
            injection hk' with hk'
            exact hk' ▸ hk'mem
          constructor
          · intro hkR
            rcases List.mem_append.mp hkR with hin | hin
            · exact hdisj k (List.mem_filter.mp hin).1 g' hg' hkg'
            · exact hkR' hin
          · intro j hj hjk
            exact List.mem_append.mpr (Or.inr (hrem j hj hjk))

/-- Behaviour of the earliest-member selection on one emitted cluster: the
minimum exists, it is a member, its timestamp is at most the timestamp of
every member, on timestamp ties it has the smallest index, and it is the
anchor exactly when the anchor timestamp is minimal. -/
theorem group_min_spec (det : DuplicateDetector) (ts : List Tweet)
    (g : List Nat) (a : Nat) (delta : List Nat) (hga : g = a :: delta)
    (hok : ∀ x ∈ delta, anchorOk det ts a x)
    (hsort : List.Sorted (· < ·) g) :
    ∃ k, pyMinByDate ts g = some k ∧ k ∈ g ∧
      (∀ j ∈ g, dateLe (tweetAt ts k).date (tweetAt ts j).date = some true) ∧
      (∀ j ∈ g, dsub (tweetAt ts j).date (tweetAt ts k).date = some 0 →
        k ≤ j) ∧
      (pyMinByDate ts g = some a ↔
        ∀ j ∈ g, dateLe (tweetAt ts a).date (tweetAt ts j).date =
          some true) := by
  have Haw : ∀ j ∈ g, (tweetAt ts j).date.aware =
      (tweetAt ts a).date.aware := by
    intro j hj
    rw [hga] at hj
    rcases List.mem_cons.mp hj with hj | hj
    · rw [hj]
    · exact (areDatesClose_aware (hok j hj).1).symm
  obtain ⟨l1, k, l2, hsplit, hrun, hstrict, hle⟩ :=
    pyMinGo_split ts delta a
      (fun x hx => Haw x (hga ▸ List.mem_cons_of_mem a hx))
  have hgsplit : g = l1 ++ k :: l2 := by rw [hga, hsplit]
  have hmin : pyMinByDate ts g = some k := by rw [hga]; exact hrun
  have hkg : k ∈ g := by
    rw [hgsplit]
    exact List.mem_append.mpr (Or.inr (List.mem_cons_self k l2))
  have heffmin : ∀ j ∈ g, (tweetAt ts k).date.effectiveMicros ≤
      (tweetAt ts j).date.effectiveMicros := by
    intro j hj
    rw [hgsplit] at hj
    rcases List.mem_append.mp hj with hj | hj
    · exact le_of_lt (hstrict j hj)
    · rcases List.mem_cons.mp hj with hj | hj
      · rw [hj]
      · exact hle j hj
  have hkaw : ∀ j ∈ g, (tweetAt ts k).date.aware =
      (tweetAt ts j).date.aware :=
    fun j hj => (Haw k hkg).trans (Haw j hj).symm
  have hdle : ∀ j ∈ g,
      dateLe (tweetAt ts k).date (tweetAt ts j).date = some true := by
    intro j hj
    rw [dateLe_of_aware (hkaw j hj)]
    exact congrArg some (decide_eq_true (heffmin j hj))
  refine ⟨k, hmin, hkg, hdle, ?_, ?_⟩
  · intro j hj hties
    have hjaw : (tweetAt ts j).date.aware = (tweetAt ts k).date.aware :=
      (Haw j hj).trans (Haw k hkg).symm
    unfold dsub at hties
    rw [if_pos hjaw] at hties
    injection hties with hties
    have heq : (tweetAt ts j).date.effectiveMicros =
        (tweetAt ts k).date.effectiveMicros := by omega
    rw [hgsplit] at hj
    rcases List.mem_append.mp hj with hj | hj
    · exact absurd heq.symm (ne_of_lt (hstrict j hj))
    · rcases List.mem_cons.mp hj with hj | hj
      · rw [hj]
      · have hsub2 : List.Sublist (k :: l2) g := by
          rw [hgsplit]
          exact List.sublist_append_right l1 (k :: l2)
        have hs2 : List.Sorted (· < ·) (k :: l2) := hsort.sublist hsub2
        exact le_of_lt (List.rel_of_sorted_cons hs2 j hj)
  · constructor
    · intro hma
      have hka : k = a := by
        rw [hmin] at hma
        injection hma
      intro j hj
      rw [← hka]
      exact hdle j hj
    · intro hall
      have heffa : (tweetAt ts a).date.effectiveMicros ≤
          (tweetAt ts k).date.effectiveMicros := by
        have := hall k hkg
        rw [dateLe_of_aware ((Haw a (hga ▸ List.mem_cons_self a delta)).trans
          (Haw k hkg).symm)] at this
        injection this with this
        exact of_decide_eq_true this
      rcases l1 with _ | ⟨z, l1t⟩
      · simp only [List.nil_append] at hgsplit
        rw [hga] at hgsplit
        obtain ⟨h1, _⟩ := List.cons_eq_cons.mp hgsplit
        rw [hmin, h1]
      · have haz : a = z := by
          rw [hga] at hgsplit
          exact (List.cons_eq_cons.mp hgsplit).1
        have hzlt := hstrict z (List.mem_cons_self z l1t)
        rw [← haz] at hzlt
        exact absurd heffa (not_le.mpr hzlt)

/-- Claim C10: for every input list of tweets, the groups returned by a
successful `find_duplicates` run are pairwise disjoint lists of valid
indices into the input, each strictly increasing, so the anchor (the first
element) is the smallest member and no record belongs to two clusters. -/
theorem C10_clusters_disjoint_and_sorted (det : DuplicateDetector)
    (ts : List Tweet) (gs : List (List Nat))
    (h : findDuplicates det ts = some gs) :
    (∀ g ∈ gs, (∀ x ∈ g, x < ts.length) ∧ List.Sorted (· < ·) g ∧
      ∃ a delta, g = a :: delta ∧ ∀ x ∈ g, a ≤ x) ∧
    List.Pairwise (fun g1 g2 => ∀ x ∈ g1, x ∉ g2) gs := by
  obtain ⟨H1, H2⟩ := outerLoop_spec det ts (List.range ts.length) [] gs h
  refine ⟨fun g hg => ?_, H2⟩
  obtain ⟨a, delta, hga, hne, hsub, hnp, hok⟩ := H1 g hg
  have hsort : List.Sorted (· < ·) g :=
    (List.sorted_lt_range ts.length).sublist hsub
  refine ⟨fun x hx => List.mem_range.mp (hsub.subset hx), hsort,
    a, delta, hga, ?_⟩
  intro x hx
  rw [hga] at hx hsort
  rcases List.mem_cons.mp hx with hx | hx
  · exact le_of_eq hx.symm
  · exact le_of_lt (List.rel_of_sorted_cons hsort x hx)

/-- Witness for claim C10 at the concrete Scenario C records. -/
theorem C10_clusters_witness :
    (∀ g ∈ [[0, 1]], (∀ x ∈ g, x < [tA, tB, tC].length) ∧
      List.Sorted (· < ·) g ∧
      ∃ a delta, g = a :: delta ∧ ∀ x ∈ g, a ≤ x) ∧
    List.Pairwise (fun g1 g2 => ∀ x ∈ g1, x ∉ g2)
      ([[0, 1]] : List (List Nat)) :=
  C10_clusters_disjoint_and_sorted defaultDetector [tA, tB, tC] [[0, 1]]
    (by decide)

/-- Claim C7: in every cluster emitted by a successful `find_duplicates`
run, the member selected by `remove_duplicates` is a member of the
cluster, it is kept while every other member of the cluster is removed,
its timestamp is at most the timestamp of every member, and among members
sharing the earliest timestamp the one with the earliest input position
survives. -/
theorem C7_kept_member_is_earliest (det : DuplicateDetector)
    (ts : List Tweet) (gs : List (List Nat))
    (h : findDuplicates det ts = some gs) :
    ∃ R, removedIndices ts gs = some R ∧
      ∀ g ∈ gs, ∃ k, pyMinByDate ts g = some k ∧ k ∈ g ∧ k ∉ R ∧
        (∀ j ∈ g, j ≠ k → j ∈ R) ∧
        (∀ j ∈ g,
          dateLe (tweetAt ts k).date (tweetAt ts j).date = some true) ∧
        (∀ j ∈ g,
          dsub (tweetAt ts j).date (tweetAt ts k).date = some 0 →
            k ≤ j) := by
  obtain ⟨H1, H2⟩ := outerLoop_spec det ts (List.range ts.length) [] gs h
  have hmins : ∀ g ∈ gs, ∃ k, pyMinByDate ts g = some k ∧ k ∈ g := by
    intro g hg
    obtain ⟨a, delta, hga, hne, hsub, hnp, hok⟩ := H1 g hg
    obtain ⟨k, hk, hkg, _, _, _⟩ := group_min_spec det ts g a delta hga hok
      ((List.sorted_lt_range ts.length).sublist hsub)
    exact ⟨k, hk, hkg⟩
  obtain ⟨R, hR, hdom, hspec⟩ := removedIndices_spec ts gs hmins H2
  refine ⟨R, hR, fun g hg => ?_⟩
  obtain ⟨a, delta, hga, hne, hsub, hnp, hok⟩ := H1 g hg
  obtain ⟨k, hk, hkg, hdle, hties, _⟩ := group_min_spec det ts g a delta
    hga hok ((List.sorted_lt_range ts.length).sublist hsub)
  obtain ⟨hkR, hrem⟩ := hspec g hg k hk
  exact ⟨k, hk, hkg, hkR, hrem, hdle, hties⟩

/-- Witness for claim C7 at the concrete Scenario C records. -/
theorem C7_kept_member_witness :
    ∃ R, removedIndices [tA, tB, tC] [[0, 1]] = some R ∧
      ∀ g ∈ [[0, 1]], ∃ k, pyMinByDate [tA, tB, tC] g = some k ∧ k ∈ g ∧
        k ∉ R ∧ (∀ j ∈ g, j ≠ k → j ∈ R) ∧
        (∀ j ∈ g, dateLe (tweetAt [tA, tB, tC] k).date
          (tweetAt [tA, tB, tC] j).date = some true) ∧
        (∀ j ∈ g, dsub (tweetAt [tA, tB, tC] j).date
          (tweetAt [tA, tB, tC] k).date = some 0 → k ≤ j) :=
  C7_kept_member_is_earliest defaultDetector [tA, tB, tC] [[0, 1]]
    (by decide)

/-- Claim C3, counterexample: with two near-identical records where the
later-dated one comes first in input order, `remove_duplicates` keeps the
earlier record `u1`, but the report rendered by `generate_report` shows
the first group member `u0` as the kept tweet — the rendered kept member
is not the earliest-timestamp member and differs from the record actually
kept. -/
theorem C3_report_kept_counterexample :
    removeDuplicates defaultDetector [u0, u1] = some ([u1], [[u0, u1]]) ∧
    (generateReport 2 [u1] [[u0, u1]]).duplicate_details =
      [{ group_id := 1, duplicate_count := 2, kept_tweet := u0.render,
         removed_tweets := [u1.render] }] ∧
    u0.render ≠ u1.render ∧
    dateLt u1.date u0.date = some true := by decide

/-- Claim C3, amended: the member rendered as the kept tweet of each
cluster in the report is the first member of the cluster in discovery
order (the anchor), and within each index group the earliest-selection of
`remove_duplicates` picks the anchor exactly when the anchor timestamp is
at most the timestamp of every member — so report and resolution agree
precisely in that case. -/
theorem C3_report_kept_is_anchor (det : DuplicateDetector)
    (ts cleaned : List Tweet) (dgroups : List (List Tweet))
    (originalCount : Nat)
    (h : removeDuplicates det ts = some (cleaned, dgroups)) :
    ((generateReport originalCount cleaned dgroups).duplicate_details.map
        GroupDetail.kept_tweet =
      dgroups.map fun g => (g.headD dummyTweet).render) ∧
    ∃ gs, findDuplicates det ts = some gs ∧
      dgroups = gs.map (fun g => g.map (tweetAt ts)) ∧
      ∀ g ∈ gs, ∃ a delta, g = a :: delta ∧
        (pyMinByDate ts g = some a ↔
          ∀ j ∈ g, dateLe (tweetAt ts a).date (tweetAt ts j).date =
            some true) := by
  constructor
  · show ((dgroups.enum.map fun p => groupDetailOf (p.1 + 1) p.2).map
      GroupDetail.kept_tweet) = _
    rw [List.map_map]
    have hc : (GroupDetail.kept_tweet ∘
        fun p : Nat × List Tweet => groupDetailOf (p.1 + 1) p.2) =
        ((fun g : List Tweet => (g.headD dummyTweet).render) ∘ Prod.snd) :=
      rfl
    rw [hc, ← List.map_map, List.enum_map_snd]
  · unfold removeDuplicates at h
    by_cases hemp : ts.isEmpty
    · rw [if_pos hemp] at h
      injection h with h
      have hts : ts = [] := List.isEmpty_iff.mp hemp
      refine ⟨[], by rw [hts]; rfl, ?_, by simp⟩
      have := (Prod.mk.injEq _ _ _ _).mp h
      simp [← this.2]
    · rw [if_neg hemp] at h
      cases hfd : findDuplicates det ts with
      | none =>
          rw [hfd] at h
          simp at h
      | some gs =>
          rw [hfd] at h
          simp only [Option.bind_eq_bind, Option.some_bind] at h
          cases hri : removedIndices ts gs with
          | none =>
              rw [hri] at h
              simp at h
          | some R =>
              rw [hri] at h
              simp only [Option.some_bind, Option.pure_def,
                Option.some.injEq, Prod.mk.injEq] at h
              have hdg : dgroups = gs.map (fun g => g.map (tweetAt ts)) :=
                h.2.symm
              refine ⟨gs, rfl, hdg, fun g hg => ?_⟩
              obtain ⟨H1, H2⟩ :=
                outerLoop_spec det ts (List.range ts.length) [] gs hfd
              obtain ⟨a, delta, hga, hne, hsub, hnp, hok⟩ := H1 g hg
              obtain ⟨k, hk, hkg, hdle, hties, hiff⟩ :=
                group_min_spec det ts g a delta hga hok
                  ((List.sorted_lt_range ts.length).sublist hsub)
              exact ⟨a, delta, hga, hiff⟩

/-- Witness for the amended claim C3 at the concrete two-record input. -/
theorem C3_report_kept_witness :
    ((generateReport 2 [u1] [[u0, u1]]).duplicate_details.map
        GroupDetail.kept_tweet =
      [[u0, u1]].map fun g => (g.headD dummyTweet).render) ∧
    ∃ gs, findDuplicates defaultDetector [u0, u1] = some gs ∧
      [[u0, u1]] = gs.map (fun g => g.map (tweetAt [u0, u1])) ∧
      ∀ g ∈ gs, ∃ a delta, g = a :: delta ∧
        (pyMinByDate [u0, u1] g = some a ↔
          ∀ j ∈ g, dateLe (tweetAt [u0, u1] a).date
            (tweetAt [u0, u1] j).date = some true) :=
  C3_report_kept_is_anchor defaultDetector [u0, u1] [u1] [[u0, u1]] 2
    (by decide)

/-! Infrastructure for the idempotence analysis of `_normalize_content`.
The second application of the pipeline is the identity as soon as the
first output is free of URL matches; the lemmas below establish that the
output of the first pass is whitespace-collapsed, fold-stable and
mention-free, and that each of these properties makes the corresponding
pass a no-op. -/

/-- The head of a `dropWhile` result fails the predicate. -/
theorem dropWhile_head_not {p : Char → Bool} {l : List Char} {a : Char}
    (h : (l.dropWhile p).head? = some a) : p a = false := by
  induction l with
  | nil => simp at h
  | cons c rest ih =>
      by_cases hc : p c
      · rw [List.dropWhile_cons_of_pos hc] at h
        exact ih h
      · rw [List.dropWhile_cons_of_neg hc] at h
        simp at h
        rw [← h]
        simpa using hc

/-- Unfolding equation of `noMentionStart` on two or more characters. -/
theorem noMentionStart_cons2 (a b : Char) (t : List Char) :
    noMentionStart (a :: b :: t) =
      (!(decide (a = '@') && isWordChar b) && noMentionStart (b :: t)) := rfl

/-- Tail closure of the local no-mention property. -/
theorem noMentionStart_tail {c : Char} {l : List Char}
    (h : noMentionStart (c :: l) = true) : noMentionStart l = true := by
  cases l with
  | nil => rfl
  | cons b t =>
      rw [noMentionStart_cons2] at h
      simp only [Bool.and_eq_true] at h
      exact h.2

/-- Prefix closure of the local no-mention property. -/
theorem noMentionStart_append_left :
    ∀ (l1 l2 : List Char), noMentionStart (l1 ++ l2) = true →
      noMentionStart l1 = true := by
  intro l1
  induction l1 with
  | nil => intro _ _; rfl
  | cons c rest ih =>
      intro l2 h
      cases rest with
      | nil => rfl
      | cons b t =>
          rw [List.cons_append, List.cons_append, noMentionStart_cons2] at h
          rw [noMentionStart_cons2]
          simp only [Bool.and_eq_true] at h ⊢
          exact ⟨h.1, ih l2 h.2⟩

/-- Suffix closure of the local no-mention property. -/
theorem noMentionStart_append_right :
    ∀ (l1 l2 : List Char), noMentionStart (l1 ++ l2) = true →
      noMentionStart l2 = true := by
  intro l1
  induction l1 with
  | nil => intro _ h; exact h
  | cons c rest ih =>
      intro l2 h
      rw [List.cons_append] at h
      exact ih l2 (noMentionStart_tail h)

/-- Unfolding equation of `wsCollapsed` on one character. -/
theorem wsCollapsed_one (c : Char) :
    wsCollapsed [c] = (!pyIsSpace c || decide (c = ' ')) := rfl

/-- Unfolding equation of `wsCollapsed` on two or more characters. -/
theorem wsCollapsed_cons2 (a b : Char) (t : List Char) :
    wsCollapsed (a :: b :: t) =
      ((!pyIsSpace a || decide (a = ' ')) &&
        !(pyIsSpace a && pyIsSpace b) && wsCollapsed (b :: t)) := rfl

/-- Tail closure of the collapsed-whitespace property. -/
theorem wsCollapsed_tail {c : Char} {l : List Char}
    (h : wsCollapsed (c :: l) = true) : wsCollapsed l = true := by
  cases l with
  | nil => rfl
  | cons b t =>
      rw [wsCollapsed_cons2] at h
      simp only [Bool.and_eq_true] at h
      exact h.2

/-- The head condition carried by the collapsed-whitespace property: a
whitespace character is a plain space. -/
theorem wsCollapsed_head {c : Char} {l : List Char}
    (h : wsCollapsed (c :: l) = true) (hws : pyIsSpace c = true) :
    c = ' ' := by
  cases l with
  | nil =>
      rw [wsCollapsed_one] at h
      simp only [Bool.or_eq_true, Bool.not_eq_true'] at h
      rcases h with h | h
      · rw [h] at hws
        cases hws
      · simpa using h
  | cons b t =>
      rw [wsCollapsed_cons2] at h
      simp only [Bool.and_eq_true, Bool.or_eq_true, Bool.not_eq_true'] at h
      rcases h.1.1 with h' | h'
      · rw [h'] at hws
        cases hws
      · simpa using h'

/-- The adjacency condition carried by the collapsed-whitespace property:
no two neighbouring whitespace characters. -/
theorem wsCollapsed_adj {a b : Char} {t : List Char}
    (h : wsCollapsed (a :: b :: t) = true) (hws : pyIsSpace a = true) :
    pyIsSpace b = false := by
  rw [wsCollapsed_cons2] at h
  simp only [Bool.and_eq_true, Bool.not_eq_true'] at h
  have := h.1.2
  rw [hws] at this
  simpa using this

/-- Prefix closure of the collapsed-whitespace property. -/
theorem wsCollapsed_append_left :
    ∀ (l1 l2 : List Char), wsCollapsed (l1 ++ l2) = true →
      wsCollapsed l1 = true := by
  intro l1
  induction l1 with
  | nil => intro _ _; rfl
  | cons c rest ih =>
      intro l2 h
      cases rest with
      | nil =>
          cases l2 with
          | nil => exact h
          | cons d t2 =>
              rw [List.cons_append, List.nil_append, wsCollapsed_cons2] at h
              simp only [Bool.and_eq_true] at h
              rw [wsCollapsed_one]
              exact h.1.1
      | cons b t =>
          rw [List.cons_append, List.cons_append, wsCollapsed_cons2] at h
          rw [wsCollapsed_cons2]
          simp only [Bool.and_eq_true] at h ⊢
          exact ⟨h.1, ih l2 h.2⟩

/-- Suffix closure of the collapsed-whitespace property. -/
theorem wsCollapsed_append_right :
    ∀ (l1 l2 : List Char), wsCollapsed (l1 ++ l2) = true →
      wsCollapsed l2 = true := by
  intro l1
  induction l1 with
  | nil => intro _ h; exact h
  | cons c rest ih =>
      intro l2 h
      rw [List.cons_append] at h
      exact ih l2 (wsCollapsed_tail h)

/-- A character surviving the URL match lies in the scanned text. -/
theorem matchUrlAt_mem {l r : List Char} (h : matchUrlAt l = some r) :
    ∀ x ∈ r, x ∈ l := by
  intro x hx
  unfold matchUrlAt at h
  split at h
  next rest =>
    split at h
    next body =>
      split at h
      · cases h
      · injection h with h
        subst h
        have hb : x ∈ body := (List.dropWhile_sublist _).subset hx
        simp [hb]
    next body =>
      split at h
      · cases h
      · injection h with h
        subst h
        have hb : x ∈ body := (List.dropWhile_sublist _).subset hx
        simp [hb]
    next => cases h
  next => cases h

/-- Characters of the URL-stripped text come from the input. -/
theorem removeUrlsAux_mem :
    ∀ (fuel : Nat) (l : List Char) (x : Char),
      x ∈ removeUrlsAux fuel l → x ∈ l := by
  intro fuel
  induction fuel with
  | zero => intro l x hx; exact hx
  | succ fuel ih =>
      intro l x hx
      cases l with
      | nil => exact hx
      | cons c rest =>
          rw [show removeUrlsAux (fuel + 1) (c :: rest) =
            (match matchUrlAt (c :: rest) with
             | some rest' => removeUrlsAux fuel rest'
             | none => c :: removeUrlsAux fuel rest) from rfl] at hx
          cases hm : matchUrlAt (c :: rest) with
          | some rest' =>
              rw [hm] at hx
              exact matchUrlAt_mem hm x (ih rest' x hx)
          | none =>
              rw [hm] at hx
              rcases List.mem_cons.mp hx with hx | hx
              · simp [hx]
              · simp [ih rest x hx]

/-- Unfolding equation of the mention scan on a cons cell. -/
theorem removeMentionsAux_cons (fuel : Nat) (c : Char) (rest : List Char) :
    removeMentionsAux (fuel + 1) (c :: rest) =
      (if c = '@' then
        match rest with
        | [] => ['@']
        | c2 :: rest2 =>
            if isWordChar c2 then
              removeMentionsAux fuel (rest2.dropWhile isWordChar)
            else '@' :: removeMentionsAux fuel (c2 :: rest2)
      else c :: removeMentionsAux fuel rest) := rfl

/-- Characters of the mention-stripped text come from the input. -/
theorem removeMentionsAux_mem :
    ∀ (fuel : Nat) (l : List Char) (x : Char),
      x ∈ removeMentionsAux fuel l → x ∈ l := by
  intro fuel
  induction fuel with
  | zero => intro l x hx; exact hx
  | succ fuel ih =>
      intro l x hx
      cases l with
      | nil => exact hx
      | cons c rest =>
          rw [removeMentionsAux_cons] at hx
          by_cases hc : c = '@'
          · rw [if_pos hc] at hx
            cases rest with
            | nil =>
                subst hc
                exact hx
            | cons c2 rest2 =>
                dsimp only at hx
                by_cases hw : isWordChar c2
                · rw [if_pos hw] at hx
                  have := ih _ x hx
                  have hr : x ∈ rest2 := (List.dropWhile_sublist _).subset this
                  simp [hr]
                · rw [if_neg hw] at hx
                  rcases List.mem_cons.mp hx with hx | hx
                  · simp [hx, hc]
                  · have := ih _ x hx
                    simp at this
                    rcases this with h | h <;> simp [h]
          · rw [if_neg hc] at hx
            rcases List.mem_cons.mp hx with hx | hx
            · simp [hx]
            · simp [ih rest x hx]

/-- Characters of the collapsed text come from the input or are spaces. -/
theorem collapseRunsAux_mem :
    ∀ (fuel : Nat) (l : List Char) (x : Char),
      x ∈ collapseRunsAux fuel l → x ∈ l ∨ x = ' ' := by
  intro fuel
  induction fuel with
  | zero => intro l x hx; exact Or.inl hx
  | succ fuel ih =>
      intro l x hx
      cases l with
      | nil => exact Or.inl hx
      | cons c rest =>
          rw [show collapseRunsAux (fuel + 1) (c :: rest) =
            (if pyIsSpace c then
              ' ' :: collapseRunsAux fuel (rest.dropWhile pyIsSpace)
            else c :: collapseRunsAux fuel rest) from rfl] at hx
          by_cases hws : pyIsSpace c
          · rw [if_pos hws] at hx
            rcases List.mem_cons.mp hx with hx | hx
            · exact Or.inr hx
            · rcases ih _ x hx with h | h
              · exact Or.inl (by simp [(List.dropWhile_sublist _).subset h])
              · exact Or.inr h
          · rw [if_neg hws] at hx
            rcases List.mem_cons.mp hx with hx | hx
            · exact Or.inl (by simp [hx])
            · rcases ih rest x hx with h | h
              · exact Or.inl (by simp [h])
              · exact Or.inr h

/-- Characters of the stripped text come from the input. -/
theorem pyStripL_mem {l : List Char} {x : Char} (hx : x ∈ pyStripL l) :
    x ∈ l := by
  unfold pyStripL stripLeft at hx
  simp only [List.mem_reverse] at hx
  have h1 := (List.dropWhile_sublist _).subset hx
  simp only [List.mem_reverse] at h1
  exact (List.dropWhile_sublist _).subset h1

/-- Idempotence of the Arabic fold table on characters: no target is a
source. -/
theorem foldArabicChar_idem (c : Char) :
    foldArabicChar (foldArabicChar c) = foldArabicChar c := by
  by_cases h1 : c = 'أ'
  · subst h1; decide
  by_cases h2 : c = 'إ'
  · subst h2; decide
  by_cases h3 : c = 'آ'
  · subst h3; decide
  by_cases h4 : c = 'ة'
  · subst h4; decide
  by_cases h5 : c = 'ى'
  · subst h5; decide
  by_cases h6 : c = 'ئ'
  · subst h6; decide
  by_cases h7 : c = 'ؤ'
  · subst h7; decide
  have hid : foldArabicChar c = c := by
    unfold foldArabicChar
    rw [if_neg h1, if_neg h2, if_neg h3, if_neg h4, if_neg h5, if_neg h6,
      if_neg h7]
  rw [hid, hid]

/-- A map by the fold table is the identity on fold-stable texts. -/
theorem map_foldArabic_id {l : List Char}
    (h : ∀ c ∈ l, foldArabicChar c = c) : l.map foldArabicChar = l := by
  induction l with
  | nil => rfl
  | cons c rest ih =>
      rw [List.map_cons, h c (by simp), ih (fun d hd => h d (by simp [hd]))]

/-- Building the local no-mention property through a cons cell. -/
theorem noMentionStart_cons_of {c : Char} {l : List Char}
    (h : noMentionStart l = true)
    (hh : ∀ b, l.head? = some b → c = '@' → isWordChar b = false) :
    noMentionStart (c :: l) = true := by
  cases l with
  | nil => rfl
  | cons b t =>
      rw [noMentionStart_cons2]
      simp only [Bool.and_eq_true]
      refine ⟨?_, h⟩
      by_cases hc : c = '@'
      · have := hh b rfl hc
        simp [hc, this]
      · simp [hc]

/-- If the mention scan emits a word character first, the input already
began with that character. -/
theorem removeMentionsAux_head :
    ∀ (fuel : Nat) (l : List Char) (c : Char) (r : List Char),
      l.length ≤ fuel → removeMentionsAux fuel l = c :: r →
      isWordChar c = true → l.head? = some c := by
  intro fuel
  induction fuel with
  | zero =>
      intro l c r hlen h _
      rw [List.length_eq_zero.mp (Nat.le_zero.mp hlen)] at h
      cases h
  | succ fuel ih =>
      intro l c r hlen h hw
      cases l with
      | nil => cases h
      | cons c1 rest =>
          rw [removeMentionsAux_cons] at h
          by_cases hc : c1 = '@'
          · rw [if_pos hc] at h
            cases rest with
            | nil =>
                injection h with h1 _
                rw [← h1] at hw
                cases hw
            | cons c2 rest2 =>
                dsimp only at h
                by_cases hw2 : isWordChar c2
                · rw [if_pos hw2] at h
                  have hlen2 : (rest2.dropWhile isWordChar).length ≤ fuel := by
                    have hdw : (rest2.dropWhile isWordChar).length ≤
                        rest2.length :=
                      (List.dropWhile_sublist isWordChar).length_le
                    simp at hlen
                    omega
                  have hhead := ih _ c r hlen2 h hw
                  have hnot := dropWhile_head_not hhead
                  rw [hw] at hnot
                  cases hnot
                · rw [if_neg hw2] at h
                  injection h with h1 _
                  rw [← h1] at hw
                  cases hw
          · rw [if_neg hc] at h
            injection h with h1 _
            rw [h1]
            rfl

/-- The output of the mention scan contains no mention start. -/
theorem removeMentionsAux_noMention :
    ∀ (fuel : Nat) (l : List Char), l.length ≤ fuel →
      noMentionStart (removeMentionsAux fuel l) = true := by
  intro fuel
  induction fuel with
  | zero =>
      intro l hlen
      rw [List.length_eq_zero.mp (Nat.le_zero.mp hlen)]
      rfl
  | succ fuel ih =>
      intro l hlen
      cases l with
      | nil => rfl
      | cons c1 rest =>
          rw [removeMentionsAux_cons]
          by_cases hc : c1 = '@'
          · rw [if_pos hc]
            cases rest with
            | nil => rfl
            | cons c2 rest2 =>
                dsimp only
                by_cases hw2 : isWordChar c2
                · rw [if_pos hw2]
                  have hlen2 : (rest2.dropWhile isWordChar).length ≤ fuel := by
                    have hdw : (rest2.dropWhile isWordChar).length ≤
                        rest2.length :=
                      (List.dropWhile_sublist isWordChar).length_le
                    simp at hlen
                    omega
                  exact ih _ hlen2
                · rw [if_neg hw2]
                  have hlen2 : (c2 :: rest2).length ≤ fuel := by
                    simp at hlen ⊢
                    omega
                  refine noMentionStart_cons_of (ih _ hlen2) ?_
                  intro b hb _
                  by_cases hbw : isWordChar b
                  · exfalso
                    cases hx : removeMentionsAux fuel (c2 :: rest2) with
                    | nil =>
                        rw [hx] at hb
                        cases hb
                    | cons d t =>
                        rw [hx] at hb
                        simp only [List.head?_cons, Option.some.injEq] at hb
                        rw [hb] at hx
                        have hhead :=
                          removeMentionsAux_head fuel _ b t hlen2 hx hbw
                        simp only [List.head?_cons, Option.some.injEq] at hhead
                        rw [hhead] at hw2
                        exact hw2 hbw
                  · simpa using hbw
          · rw [if_neg hc]
            have hlen2 : rest.length ≤ fuel := by
              simp at hlen
              omega
            refine noMentionStart_cons_of (ih rest hlen2) ?_
            intro b _ hcc
            exact absurd hcc hc

/-- The mention scan is the identity on texts with no mention start. -/
theorem removeMentionsAux_id :
    ∀ (fuel : Nat) (l : List Char), l.length ≤ fuel →
      noMentionStart l = true → removeMentionsAux fuel l = l := by
  intro fuel
  induction fuel with
  | zero =>
      intro l hlen _
      rw [List.length_eq_zero.mp (Nat.le_zero.mp hlen)]
      rfl
  | succ fuel ih =>
      intro l hlen hnm
      cases l with
      | nil => rfl
      | cons c1 rest =>
          rw [removeMentionsAux_cons]
          by_cases hc : c1 = '@'
          · rw [if_pos hc]
            cases rest with
            | nil => rw [hc]
            | cons c2 rest2 =>
                dsimp only
                have hw2 : isWordChar c2 = false := by
                  subst hc
                  rw [noMentionStart_cons2] at hnm
                  simp only [Bool.and_eq_true, Bool.not_eq_true',
                    Bool.and_eq_false_iff] at hnm
                  rcases hnm.1 with h | h
                  · simp at h
                  · exact h
                rw [if_neg (by simp [hw2])]
                have hlen2 : (c2 :: rest2).length ≤ fuel := by
                  simp at hlen ⊢
                  omega
                rw [ih _ hlen2 (noMentionStart_tail hnm), hc]
          · rw [if_neg hc]
            have hlen2 : rest.length ≤ fuel := by
              simp at hlen
              omega
            rw [ih rest hlen2 (noMentionStart_tail hnm)]

/-- Unfolding equation of the whitespace collapse on a cons cell. -/
theorem collapseRunsAux_cons (fuel : Nat) (c : Char) (rest : List Char) :
    collapseRunsAux (fuel + 1) (c :: rest) =
      (if pyIsSpace c then
        ' ' :: collapseRunsAux fuel (rest.dropWhile pyIsSpace)
      else c :: collapseRunsAux fuel rest) := rfl

/-- The first emitted character of the collapse scan is the input head or
a space standing for a whitespace run. -/
theorem collapseRunsAux_head :
    ∀ (fuel : Nat) (l : List Char) (c : Char) (r : List Char),
      collapseRunsAux fuel l = c :: r →
      l.head? = some c ∨
        (c = ' ' ∧ ∃ d, l.head? = some d ∧ pyIsSpace d = true) := by
  intro fuel
  cases fuel with
  | zero =>
      intro l c r h
      have hl : l = c :: r := h
      rw [hl]
      exact Or.inl rfl
  | succ fuel =>
      intro l c r h
      cases l with
      | nil => cases h
      | cons c1 rest =>
          rw [collapseRunsAux_cons] at h
          by_cases hws : pyIsSpace c1
          · rw [if_pos hws] at h
            injection h with h1 _
            exact Or.inr ⟨h1.symm, c1, rfl, hws⟩
          · rw [if_neg hws] at h
            injection h with h1 _
            exact Or.inl (by simp [h1])

/-- Building the collapsed-whitespace property through a cons cell. -/
theorem wsCollapsed_cons_of {c : Char} {l : List Char}
    (h : wsCollapsed l = true) (hc : pyIsSpace c = true → c = ' ')
    (hh : ∀ b, l.head? = some b → pyIsSpace c = true →
      pyIsSpace b = false) :
    wsCollapsed (c :: l) = true := by
  cases l with
  | nil =>
      rw [wsCollapsed_one]
      by_cases hws : pyIsSpace c
      · simp [hc hws]
      · simp [hws]
  | cons b t =>
      rw [wsCollapsed_cons2]
      simp only [Bool.and_eq_true]
      refine ⟨⟨?_, ?_⟩, h⟩
      · by_cases hws : pyIsSpace c
        · simp [hc hws]
        · simp [hws]
      · by_cases hws : pyIsSpace c
        · simp [hws, hh b rfl hws]
        · simp [hws]

/-- The output of the collapse scan is whitespace-collapsed. -/
theorem collapseRunsAux_wsCollapsed :
    ∀ (fuel : Nat) (l : List Char), l.length ≤ fuel →
      wsCollapsed (collapseRunsAux fuel l) = true := by
  intro fuel
  induction fuel with
  | zero =>
      intro l hlen
      rw [List.length_eq_zero.mp (Nat.le_zero.mp hlen)]
      rfl
  | succ fuel ih =>
      intro l hlen
      cases l with
      | nil => rfl
      | cons c1 rest =>
          rw [collapseRunsAux_cons]
          by_cases hws : pyIsSpace c1
          · rw [if_pos hws]
            have hlen2 : (rest.dropWhile pyIsSpace).length ≤ fuel := by
              have hdw : (rest.dropWhile pyIsSpace).length ≤ rest.length :=
                (List.dropWhile_sublist pyIsSpace).length_le
              simp at hlen
              omega
            refine wsCollapsed_cons_of (ih _ hlen2) (fun _ => rfl) ?_
            intro b hb _
            cases hx : collapseRunsAux fuel (rest.dropWhile pyIsSpace) with
            | nil =>
                rw [hx] at hb
                cases hb
            | cons e t =>
                rw [hx] at hb
                simp only [List.head?_cons, Option.some.injEq] at hb
                rw [hb] at hx
                rcases collapseRunsAux_head fuel _ b t hx with h' | h'
                · exact dropWhile_head_not h'
                · obtain ⟨hb', d, hd, hdws⟩ := h'
                  have hnd := dropWhile_head_not hd
                  rw [hdws] at hnd
                  cases hnd
          · rw [if_neg hws]
            have hlen2 : rest.length ≤ fuel := by
              simp at hlen
              omega
            refine wsCollapsed_cons_of (ih rest hlen2) ?_ ?_
            · intro h'
              exact absurd h' hws
            · intro b _ h'
              exact absurd h' hws

/-- The collapse scan is the identity on whitespace-collapsed texts. -/
theorem collapseRunsAux_id :
    ∀ (fuel : Nat) (l : List Char), l.length ≤ fuel →
      wsCollapsed l = true → collapseRunsAux fuel l = l := by
  intro fuel
  induction fuel with
  | zero =>
      intro l hlen _
      rw [List.length_eq_zero.mp (Nat.le_zero.mp hlen)]
      rfl
  | succ fuel ih =>
      intro l hlen hcw
      cases l with
      | nil => rfl
      | cons c1 rest =>
          rw [collapseRunsAux_cons]
          have hlen2 : rest.length ≤ fuel := by
            simp at hlen
            omega
          by_cases hws : pyIsSpace c1
          · rw [if_pos hws]
            have hsp : c1 = ' ' := wsCollapsed_head hcw hws
            have hdrop : rest.dropWhile pyIsSpace = rest := by
              cases rest with
              | nil => rfl
              | cons b t =>
                  have hb : pyIsSpace b = false := wsCollapsed_adj hcw hws
                  exact List.dropWhile_cons_of_neg (by simp [hb])
            rw [hdrop, ih rest hlen2 (wsCollapsed_tail hcw), hsp]
          · rw [if_neg hws]
            rw [ih rest hlen2 (wsCollapsed_tail hcw)]

/-- The collapse scan preserves the local no-mention property. -/
theorem collapseRunsAux_noMention :
    ∀ (fuel : Nat) (l : List Char), l.length ≤ fuel →
      noMentionStart l = true →
      noMentionStart (collapseRunsAux fuel l) = true := by
  intro fuel
  induction fuel with
  | zero =>
      intro l hlen _
      rw [List.length_eq_zero.mp (Nat.le_zero.mp hlen)]
      rfl
  | succ fuel ih =>
      intro l hlen hnm
      cases l with
      | nil => rfl
      | cons c1 rest =>
          rw [collapseRunsAux_cons]
          by_cases hws : pyIsSpace c1
          · rw [if_pos hws]
            have hlen2 : (rest.dropWhile pyIsSpace).length ≤ fuel := by
              have hdw : (rest.dropWhile pyIsSpace).length ≤ rest.length :=
                (List.dropWhile_sublist pyIsSpace).length_le
              simp at hlen
              omega
            have hnm2 : noMentionStart (rest.dropWhile pyIsSpace) = true := by
              have hdec := List.takeWhile_append_dropWhile pyIsSpace rest
              have := noMentionStart_tail hnm
              rw [← hdec] at this
              exact noMentionStart_append_right _ _ this
            refine noMentionStart_cons_of (ih _ hlen2 hnm2) ?_
            intro b _ hsp
            cases hsp
          · rw [if_neg hws]
            have hlen2 : rest.length ≤ fuel := by
              simp at hlen
              omega
            refine noMentionStart_cons_of
              (ih rest hlen2 (noMentionStart_tail hnm)) ?_
            intro b hb hcat
            cases hx : collapseRunsAux fuel rest with
            | nil =>
                rw [hx] at hb
                cases hb
            | cons e t =>
                rw [hx] at hb
                simp only [List.head?_cons, Option.some.injEq] at hb
                rw [hb] at hx
                rcases collapseRunsAux_head fuel _ b t hx with h' | h'
                · by_cases hbw : isWordChar b
                  · exfalso
                    cases rest with
                    | nil => cases h'
                    | cons r2 t2 =>
                        simp only [List.head?_cons, Option.some.injEq] at h'
                        rw [noMentionStart_cons2] at hnm
                        simp only [Bool.and_eq_true, Bool.not_eq_true',
                          Bool.and_eq_false_iff] at hnm
                        rcases hnm.1 with hbad | hbad
                        · rw [hcat] at hbad
                          simp at hbad
                        · rw [h'] at hbad
                          rw [hbad] at hbw
                          cases hbw
                  · simpa using hbw
                · obtain ⟨hb', _⟩ := h'
                  rw [hb']
                  decide

/-- A list whose head fails the predicate is unchanged by `dropWhile`. -/
theorem dropWhile_of_head_neg {p : Char → Bool} :
    ∀ {l : List Char}, (∀ a, l.head? = some a → p a = false) →
      l.dropWhile p = l := by
  intro l h
  cases l with
  | nil => rfl
  | cons c t =>
      exact List.dropWhile_cons_of_neg (by simp [h c rfl])

/-- Right-strip decomposition: a list splits into the right-stripped part
followed by the stripped tail. -/
theorem strip_right_decomp (p : Char → Bool) (m : List Char) :
    m = (m.reverse.dropWhile p).reverse ++ (m.reverse.takeWhile p).reverse := by
  have h := List.takeWhile_append_dropWhile p m.reverse
  have h2 := congrArg List.reverse h
  rw [List.reverse_append, List.reverse_reverse] at h2
  exact h2.symm

/-- The head of a stripped list is never whitespace. -/
theorem pyStripL_head {l : List Char} {a : Char}
    (h : (pyStripL l).head? = some a) : pyIsSpace a = false := by
  have hd := strip_right_decomp pyIsSpace (stripLeft l)
  cases hp : pyStripL l with
  | nil =>
      rw [hp] at h
      cases h
  | cons c t =>
      have hp' : ((stripLeft l).reverse.dropWhile pyIsSpace).reverse
          = c :: t := hp
      rw [hp] at h
      simp only [List.head?_cons, Option.some.injEq] at h
      rw [hp', List.cons_append] at hd
      have hh : (l.dropWhile pyIsSpace).head? = some c := by
        have heq : stripLeft l
            = c :: (t ++ ((stripLeft l).reverse.takeWhile pyIsSpace).reverse) := hd
        rw [show l.dropWhile pyIsSpace = stripLeft l from rfl, heq]
        rfl
      rw [← h]
      exact dropWhile_head_not hh

/-- Python `strip` is idempotent. -/
theorem pyStripL_idem (l : List Char) : pyStripL (pyStripL l) = pyStripL l := by
  have hsl : (pyStripL l).dropWhile pyIsSpace = pyStripL l :=
    dropWhile_of_head_neg (fun a ha => pyStripL_head ha)
  show (((pyStripL l).dropWhile pyIsSpace).reverse.dropWhile pyIsSpace).reverse
      = pyStripL l
  rw [hsl]
  have hr : (pyStripL l).reverse = (stripLeft l).reverse.dropWhile pyIsSpace := by
    show ((stripLeft l).reverse.dropWhile pyIsSpace).reverse.reverse = _
    rw [List.reverse_reverse]
  rw [hr]
  have hdd : ((stripLeft l).reverse.dropWhile pyIsSpace).dropWhile pyIsSpace
      = (stripLeft l).reverse.dropWhile pyIsSpace :=
    dropWhile_of_head_neg (fun a ha => dropWhile_head_not ha)
  rw [hdd, ← hr, List.reverse_reverse]

/-- Stripping preserves the collapsed-whitespace property. -/
theorem pyStripL_wsCollapsed {l : List Char} (h : wsCollapsed l = true) :
    wsCollapsed (pyStripL l) = true := by
  have h1 : wsCollapsed (stripLeft l) = true := by
    have hdec := List.takeWhile_append_dropWhile pyIsSpace l
    rw [← hdec] at h
    exact wsCollapsed_append_right _ _ h
  have hd := strip_right_decomp pyIsSpace (stripLeft l)
  rw [hd] at h1
  exact wsCollapsed_append_left _ _ h1

/-- Stripping preserves the local no-mention property. -/
theorem pyStripL_noMention {l : List Char} (h : noMentionStart l = true) :
    noMentionStart (pyStripL l) = true := by
  have h1 : noMentionStart (stripLeft l) = true := by
    have hdec := List.takeWhile_append_dropWhile pyIsSpace l
    rw [← hdec] at h
    exact noMentionStart_append_right _ _ h
  have hd := strip_right_decomp pyIsSpace (stripLeft l)
  rw [hd] at h1
  exact noMentionStart_append_left _ _ h1

/-- Unfolding of `normalizeContent` on non-empty input. -/
theorem normalizeContent_ne (s : String) (hs : s ≠ "") :
    normalizeContent s = ⟨pyStripL (collapseRuns (removeMentionsL (removeUrlsL
      ((collapseRuns (pyStripL s.data)).map foldArabicChar))))⟩ := by
  unfold normalizeContent
  rw [if_neg hs]

/-- C9: for every input whose normalised form contains no URL-shaped
substring, `_normalize_content` is idempotent; the property fails in
general (see the counterexample), because removing a mention can splice a
URL into existence that only the second pass removes. -/
theorem C9_normalize_idempotent_no_url (x : String)
    (h : removeUrls (normalizeContent x) = normalizeContent x) :
    normalizeContent (normalizeContent x) = normalizeContent x := by
  by_cases hx : x = ""
  · rw [hx]
    rfl
  · by_cases hy : normalizeContent x = ""
    · rw [hy]
      rfl
    · have hdata : (normalizeContent x).data =
          pyStripL (collapseRuns (removeMentionsL (removeUrlsL
            ((collapseRuns (pyStripL x.data)).map foldArabicChar)))) := by
        rw [normalizeContent_ne x hx]
      have hws : wsCollapsed (normalizeContent x).data = true := by
        rw [hdata]
        exact pyStripL_wsCollapsed (collapseRunsAux_wsCollapsed _ _ le_rfl)
      have hnm : noMentionStart (normalizeContent x).data = true := by
        rw [hdata]
        exact pyStripL_noMention (collapseRunsAux_noMention _ _ le_rfl
          (removeMentionsAux_noMention _ _ le_rfl))
      have hfold : ∀ c ∈ (normalizeContent x).data, foldArabicChar c = c := by
        rw [hdata]
        intro c hc
        have h1 := pyStripL_mem hc
        rcases collapseRunsAux_mem _ _ _ h1 with h2 | h2
        · have h3 := removeMentionsAux_mem _ _ _ h2
          have h4 := removeUrlsAux_mem _ _ _ h3
          rcases List.mem_map.mp h4 with ⟨d, _, hd⟩
          rw [← hd]
          exact foldArabicChar_idem d
        · rw [h2]
          decide
      have hstrip : pyStripL (normalizeContent x).data
          = (normalizeContent x).data := by
        rw [hdata]
        exact pyStripL_idem _
      have hcoll : collapseRuns (normalizeContent x).data
          = (normalizeContent x).data :=
        collapseRunsAux_id _ _ le_rfl hws
      have hmap : ((normalizeContent x).data).map foldArabicChar
          = (normalizeContent x).data :=
        map_foldArabic_id hfold
      have hurl : removeUrlsL (normalizeContent x).data
          = (normalizeContent x).data := by
        have h2 := congrArg String.data h
        exact h2
      have hment : removeMentionsL (normalizeContent x).data
          = (normalizeContent x).data :=
        removeMentionsAux_id _ _ le_rfl hnm
      rw [normalizeContent_ne _ hy, hstrip, hcoll, hmap, hurl, hment, hcoll,
        hstrip]

/-- C9 counterexample: mention removal splices the remaining text into a
URL, so the second normalisation pass differs from the first. -/
theorem C9_normalize_idempotent_counterexample :
    normalizeContent "http@abc://foo" = "http://foo" ∧
    normalizeContent (normalizeContent "http@abc://foo") = "" ∧
    normalizeContent (normalizeContent "http@abc://foo")
      ≠ normalizeContent "http@abc://foo" := by
  refine ⟨by decide, by decide, by decide⟩

/-- C9 witness: a concrete URL-free input on which the amended idempotence
theorem applies. -/
theorem C9_normalize_idempotent_witness :
    removeUrls (normalizeContent "hello   @bob world")
      = normalizeContent "hello   @bob world" ∧
    normalizeContent (normalizeContent "hello   @bob world")
      = normalizeContent "hello   @bob world" :=
  ⟨by decide, C9_normalize_idempotent_no_url "hello   @bob world" (by decide)⟩


/-! Infrastructure for the round-trip analysis of `save_cleaned_tweets`
followed by `load_from_file`: character classes of the rendered numeric
fields, identity of the loader strip on the written lines, the line
structure of the written file, and the evaluation of the line loop. -/

/-- Characters produced by the decimal digit renderer. -/
theorem digit_char_props (m : Nat) (hm : m < 10) :
    pyIsSpace (Char.ofNat (48 + m)) = false ∧ Char.ofNat (48 + m) ≠ '\n' := by
  have h10 : m = 0 ∨ m = 1 ∨ m = 2 ∨ m = 3 ∨ m = 4 ∨ m = 5 ∨ m = 6 ∨
      m = 7 ∨ m = 8 ∨ m = 9 := by omega
  rcases h10 with h|h|h|h|h|h|h|h|h|h <;> subst h <;>
    exact ⟨by decide, by decide⟩

/-- Every character of the digit scan is a rendered digit. -/
theorem natDigitsAux_mem :
    ∀ (fuel n : Nat) (c : Char), c ∈ natDigitsAux fuel n →
      ∃ m, m < 10 ∧ c = Char.ofNat (48 + m) := by
  intro fuel
  induction fuel with
  | zero => intro n c hc; cases hc
  | succ fuel ih =>
      intro n c hc
      by_cases hn : n = 0
      · rw [show natDigitsAux (fuel + 1) n = if n = 0 then []
            else natDigitsAux fuel (n / 10) ++ [Char.ofNat (48 + n % 10)]
            from rfl, if_pos hn] at hc
        cases hc
      · rw [show natDigitsAux (fuel + 1) n = if n = 0 then []
            else natDigitsAux fuel (n / 10) ++ [Char.ofNat (48 + n % 10)]
            from rfl, if_neg hn] at hc
        rcases List.mem_append.mp hc with h | h
        · exact ih _ _ h
        · refine ⟨n % 10, Nat.mod_lt _ (by omega), ?_⟩
          simpa using h

/-- Every character of `str(n)` is a rendered digit. -/
theorem natToString_mem {n : Nat} {c : Char}
    (hc : c ∈ (natToString n).data) :
    ∃ m, m < 10 ∧ c = Char.ofNat (48 + m) := by
  by_cases hn : n = 0
  · subst hn
    simp only [natToString, if_pos rfl] at hc
    refine ⟨0, by omega, ?_⟩
    have hc0 : c = '0' := by simpa using hc
    exact hc0.trans (by decide)
  · rw [show natToString n = if n = 0 then "0" else ⟨natDigitsAux (n + 1) n⟩
        from rfl, if_neg hn] at hc
    exact natDigitsAux_mem _ _ _ hc

/-- `str(n)` contains no whitespace. -/
theorem natToString_not_ws {n : Nat} :
    ∀ c ∈ (natToString n).data, pyIsSpace c = false := by
  intro c hc
  rcases natToString_mem hc with ⟨m, hm, he⟩
  rw [he]
  exact (digit_char_props m hm).1

/-- `str(n)` contains no newline. -/
theorem natToString_noNl {n : Nat} :
    ∀ c ∈ (natToString n).data, c ≠ '\n' := by
  intro c hc
  rcases natToString_mem hc with ⟨m, hm, he⟩
  rw [he]
  exact (digit_char_props m hm).2

/-- The last character of `str(n)` is a digit; in particular it exists and
is not whitespace. -/
theorem natToString_last (n : Nat) :
    ∃ d, (natToString n).data.reverse.head? = some d ∧
      pyIsSpace d = false := by
  by_cases hn : n = 0
  · subst hn
    exact ⟨'0', by decide, by decide⟩
  · rw [show natToString n = if n = 0 then "0" else ⟨natDigitsAux (n + 1) n⟩
        from rfl, if_neg hn]
    rw [show natDigitsAux (n + 1) n = if n = 0 then []
        else natDigitsAux n (n / 10) ++ [Char.ofNat (48 + n % 10)]
        from rfl, if_neg hn]
    refine ⟨Char.ofNat (48 + n % 10), ?_, ?_⟩
    · simp
    · exact (digit_char_props _ (Nat.mod_lt _ (by omega))).1

/-- The head of an append is the head of a nonempty first part. -/
theorem head?_append_left {a b : List Char} {c : Char}
    (h : a.head? = some c) : (a ++ b).head? = some c := by
  cases a with
  | nil => cases h
  | cons x t => simpa using h

/-- The last character of an append is the last character of a nonempty
second part. -/
theorem reverse_head_append_right {a b : List Char} {c : Char}
    (h : b.reverse.head? = some c) : (a ++ b).reverse.head? = some c := by
  rw [List.reverse_append]
  exact head?_append_left h

/-- Every character of a zero-padded field is a zero or a digit of the
underlying rendering; no whitespace occurs. -/
theorem padNat_not_ws {w n : Nat} :
    ∀ c ∈ (padNat w n).data, pyIsSpace c = false := by
  intro c hc
  rcases List.mem_append.mp hc with h | h
  · have : c = '0' := by simpa using (List.eq_of_mem_replicate h)
    rw [this]
    decide
  · exact natToString_not_ws c h

/-- A zero-padded field contains no newline. -/
theorem padNat_noNl {w n : Nat} : ∀ c ∈ (padNat w n).data, c ≠ '\n' := by
  intro c hc
  rcases List.mem_append.mp hc with h | h
  · have : c = '0' := by simpa using (List.eq_of_mem_replicate h)
    rw [this]
    decide
  · exact natToString_noNl c h

/-- A zero-padded field ends in a digit. -/
theorem padNat_last (w n : Nat) :
    ∃ d, (padNat w n).data.reverse.head? = some d ∧ pyIsSpace d = false := by
  rcases natToString_last n with ⟨d, hd, hws⟩
  exact ⟨d, reverse_head_append_right hd, hws⟩

/-- No character of an `isoformat` rendering is whitespace. -/
theorem isoformat_not_ws (t : PyDatetime) :
    ∀ c ∈ (PyDatetime.isoformat t).data, pyIsSpace c = false := by
  intro c hc
  unfold PyDatetime.isoformat at hc
  simp only [String.data_append, List.mem_append, or_assoc] at hc
  rcases hc with h|h|h|h|h|h|h|h|h|h|h|h|h
  · exact padNat_not_ws c h
  · rw [show c = '-' by simpa using h]
    decide
  · exact padNat_not_ws c h
  · rw [show c = '-' by simpa using h]
    decide
  · exact padNat_not_ws c h
  · rw [show c = 'T' by simpa using h]
    decide
  · exact padNat_not_ws c h
  · rw [show c = ':' by simpa using h]
    decide
  · exact padNat_not_ws c h
  · rw [show c = ':' by simpa using h]
    decide
  · exact padNat_not_ws c h
  · split at h
    · simp at h
    · simp only [String.data_append, List.mem_append] at h
      rcases h with h4 | h4
      · rw [show c = '.' by simpa using h4]
        decide
      · exact padNat_not_ws c h4
  · split at h
    · simp at h
    · simp only [String.data_append, List.mem_append, or_assoc] at h
      rcases h with h3|h3|h3|h3
      · split at h3
        · rw [show c = '-' by simpa using h3]
          decide
        · rw [show c = '+' by simpa using h3]
          decide
      · exact padNat_not_ws c h3
      · rw [show c = ':' by simpa using h3]
        decide
      · exact padNat_not_ws c h3

/-- An `isoformat` rendering contains no newline. -/
theorem isoformat_noNl (t : PyDatetime) :
    ∀ c ∈ (PyDatetime.isoformat t).data, c ≠ '\n' := by
  intro c hc
  have hws := isoformat_not_ws t c hc
  intro he
  rw [he] at hws
  exact absurd hws (by decide)

/-- An `isoformat` rendering ends in a digit. -/
theorem isoformat_last (t : PyDatetime) :
    ∃ d, (PyDatetime.isoformat t).data.reverse.head? = some d ∧
      pyIsSpace d = false := by
  unfold PyDatetime.isoformat
  cases htz : t.tzOffsetMinutes with
  | some off =>
      rcases padNat_last 2 (off.natAbs % 60) with ⟨d, hd, hws⟩
      refine ⟨d, ?_, hws⟩
      simp only [String.data_append]
      exact reverse_head_append_right (reverse_head_append_right hd)
  | none =>
      by_cases hm : t.microsecond = 0
      · rcases padNat_last 2 t.second with ⟨d, hd, hws⟩
        refine ⟨d, ?_, hws⟩
        rw [if_pos hm]
        simp only [String.data_append]
        simp only [List.append_nil]
        exact reverse_head_append_right hd
      · rcases padNat_last 6 t.microsecond with ⟨d, hd, hws⟩
        refine ⟨d, ?_, hws⟩
        rw [if_neg hm]
        simp only [String.data_append]
        simp only [List.append_nil]
        exact reverse_head_append_right (reverse_head_append_right hd)

/-- The head of a list is a member. -/
theorem head?_mem {l : List Char} {a : Char} (h : l.head? = some a) :
    a ∈ l := by
  cases l with
  | nil => cases h
  | cons c t =>
      simp only [List.head?_cons, Option.some.injEq] at h
      rw [h]
      exact List.mem_cons_self _ _

/-- The loader strip is the identity on a line whose first and last
characters are not whitespace. -/
theorem pyStripL_id_of {l : List Char}
    (h1 : ∀ a, l.head? = some a → pyIsSpace a = false)
    (h2 : ∀ a, l.reverse.head? = some a → pyIsSpace a = false) :
    pyStripL l = l := by
  have hsl : l.dropWhile pyIsSpace = l := dropWhile_of_head_neg h1
  show ((l.dropWhile pyIsSpace).reverse.dropWhile pyIsSpace).reverse = l
  rw [hsl, dropWhile_of_head_neg h2, List.reverse_reverse]

/-- The loader strip is the identity on whitespace-free text. -/
theorem pyStripL_id_of_all {l : List Char}
    (h : ∀ c ∈ l, pyIsSpace c = false) : pyStripL l = l :=
  pyStripL_id_of (fun a ha => h a (head?_mem ha))
    (fun a ha => h a (List.mem_reverse.mp (head?_mem ha)))

/-- A strip-stable list has a non-whitespace last character. -/
theorem stripped_last {l : List Char} (h : pyStripL l = l) :
    ∀ a, l.reverse.head? = some a → pyIsSpace a = false := by
  intro a ha
  rw [← h] at ha
  have hr : (pyStripL l).reverse
      = (stripLeft l).reverse.dropWhile pyIsSpace := by
    show ((stripLeft l).reverse.dropWhile pyIsSpace).reverse.reverse = _
    rw [List.reverse_reverse]
  rw [hr] at ha
  exact dropWhile_head_not ha

/-- A strip-stable list has a non-whitespace first character. -/
theorem stripped_head {l : List Char} (h : pyStripL l = l) :
    ∀ a, l.head? = some a → pyIsSpace a = false := by
  intro a ha
  rw [← h] at ha
  exact pyStripL_head ha

/-- Splitting at newlines peels one newline-free line at a time. -/
theorem splitNl_append :
    ∀ (l rest cur : List Char), '\n' ∉ l →
      splitNl (l ++ '\n' :: rest) cur
        = ⟨cur.reverse ++ l⟩ :: splitNl rest [] := by
  intro l
  induction l with
  | nil =>
      intro rest cur _
      show splitNl ('\n' :: rest) cur = _
      rw [show splitNl ('\n' :: rest) cur = if ('\n' : Char) = '\n'
          then ⟨cur.reverse⟩ :: splitNl rest []
          else splitNl rest ('\n' :: cur) from rfl, if_pos rfl]
      simp
  | cons c t ih =>
      intro rest cur hl
      have hc : c ≠ '\n' := by
        intro hh
        exact hl (by rw [hh]; exact List.mem_cons_self _ _)
      have ht : '\n' ∉ t := fun hm => hl (List.mem_cons_of_mem _ hm)
      show splitNl (c :: (t ++ '\n' :: rest)) cur = _
      rw [show splitNl (c :: (t ++ '\n' :: rest)) cur
          = if c = '\n' then ⟨cur.reverse⟩ :: splitNl (t ++ '\n' :: rest) []
            else splitNl (t ++ '\n' :: rest) (c :: cur) from rfl,
        if_neg hc, ih rest (c :: cur) ht, List.reverse_cons,
        List.append_assoc]
      rfl

/-- Bridge from the Boolean newline test to list membership. -/
theorem noNewline_iff {s : String} : noNewline s = true ↔ '\n' ∉ s.data := by
  unfold noNewline containsChar
  cases h : s.data.contains '\n' with
  | true =>
      simp only [Bool.not_true, Bool.false_eq_true, false_iff]
      intro hn
      exact hn (List.mem_of_elem_eq_true h)
  | false =>
      simp only [Bool.not_false, true_iff]
      intro hn
      have h3 : List.elem '\n' s.data = false := h
      rw [List.elem_eq_true_of_mem hn] at h3
      cases h3

/-- The conjuncts of the benign-content predicate. -/
theorem loaderBenign_spec {c : String} (h : loaderBenign c = true) :
    noNewline c = true ∧ c ≠ "" ∧
    startsWithL "Date:".data c.data = false ∧
    startsWithL "REPLY TO:".data c.data = false ∧
    c.data ≠ "CONTENT:".data ∧
    startsWithL "URLS:".data c.data = false ∧
    startsWithL "http".data c.data = false ∧
    startsWithL "- http".data c.data = false ∧
    containsChar c.data '=' = false ∧
    isSubL "TWEET".data c.data = false ∧
    isSubL "Archive".data c.data = false := by
  unfold loaderBenign at h
  simp only [Bool.and_eq_true, Bool.not_eq_true', decide_eq_true_eq,
    and_assoc] at h
  exact h

/-- Peeling a one-segment line off the newline split. -/
theorem splitNl_step1 (a T : List Char) (ha : '\n' ∉ a) :
    splitNl (a ++ '\n' :: T) [] = ⟨a⟩ :: splitNl T [] := by
  rw [splitNl_append a T [] ha]
  rfl

/-- Peeling a two-segment line off the newline split. -/
theorem splitNl_step2 (a b T : List Char) (ha : '\n' ∉ a) (hb : '\n' ∉ b) :
    splitNl (a ++ (b ++ '\n' :: T)) [] = ⟨a ++ b⟩ :: splitNl T [] := by
  rw [← List.append_assoc]
  rw [splitNl_append (a ++ b) T [] (by
    intro hm
    rcases List.mem_append.mp hm with h | h
    · exact ha h
    · exact hb h)]
  rfl

/-- Peeling an empty line off the newline split. -/
theorem splitNl_step0 (T : List Char) :
    splitNl ('\n' :: T) [] = "" :: splitNl T [] := rfl

/-- The character data of a string-list fold of appends. -/
theorem foldl_append_data :
    ∀ (l : List String) (acc : String),
      (List.foldl (fun a b => a ++ b) acc l).data
        = acc.data ++ l.foldr (fun s r => s.data ++ r) [] := by
  intro l
  induction l with
  | nil => intro acc; simp
  | cons a t ih =>
      intro acc
      show (List.foldl _ (acc ++ a) t).data = _
      rw [ih (acc ++ a)]
      simp [List.append_assoc]

/-- The character data of `String.join`. -/
theorem join_data (l : List String) :
    (String.join l).data = l.foldr (fun s r => s.data ++ r) [] := by
  show (List.foldl _ "" l).data = _
  rw [foldl_append_data]
  rfl

/-- The separator row contains no newline. -/
theorem sep80_noNl : '\n' ∉ sep80.data := by
  intro h
  have := List.eq_of_mem_replicate h
  exact absurd this (by decide)

/-- The separator row is whitespace-free. -/
theorem sep80_not_ws : ∀ c ∈ sep80.data, pyIsSpace c = false := by
  intro c hc
  have := List.eq_of_mem_replicate hc
  rw [this]
  decide

/-- Distinct strings have distinct character data. -/
theorem data_ne_nil_of_ne {s : String} (h : s ≠ "") : s.data ≠ [] := by
  intro hd
  apply h
  have : s = ⟨s.data⟩ := rfl
  rw [this, hd]

/-- The line loop step on a `TWEET n` heading: every branch test fails
because the heading contains the filtered word, so the line is skipped. -/
theorem loadStep_tweet_header (now : PyDatetime) (st : LoadState)
    (ds : List Char) :
    loadStep now st ('T':: 'W':: 'E':: 'E':: 'T':: ' '::ds) = (st, []) := by
  unfold loadStep
  rw [if_neg (by simp [show startsWithL "Date:".data
      ('T':: 'W':: 'E':: 'E':: 'T':: ' '::ds) = false from rfl])]
  rw [if_neg (by simp [show startsWithL "REPLY TO:".data
      ('T':: 'W':: 'E':: 'E':: 'T':: ' '::ds) = false from rfl])]
  rw [if_neg (by intro hh; simp at hh)]
  rw [if_neg (by simp [show startsWithL "URLS:".data
      ('T':: 'W':: 'E':: 'E':: 'T':: ' '::ds) = false from rfl])]
  rw [if_neg (by simp [show (startsWithL "http".data
      ('T':: 'W':: 'E':: 'E':: 'T':: ' '::ds) && st.urls.isNone) = false
      from rfl])]
  rw [if_neg (by simp [show startsWithL "- http".data
      ('T':: 'W':: 'E':: 'E':: 'T':: ' '::ds) = false from rfl])]
  rw [if_neg (by
    rw [show isSubL "TWEET".data ('T':: 'W':: 'E':: 'E':: 'T':: ' '::ds) = true
      from rfl]
    simp)]

/-- The line loop step on a `Date:` line: the accumulated record is
flushed and a fresh record with the date is started. -/
theorem loadStep_date (now : PyDatetime) (st : LoadState) (d : List Char)
    (hd : ∀ c ∈ d, pyIsSpace c = false) :
    loadStep now st ('D':: 'a':: 't':: 'e':: ':':: ' '::d)
      = (⟨some ⟨d⟩, none, none, none⟩, flushState st now) := by
  unfold loadStep
  rw [if_pos (show startsWithL "Date:".data
      ('D':: 'a':: 't':: 'e':: ':':: ' '::d) = true from rfl)]
  rw [show List.drop 6 ('D':: 'a':: 't':: 'e':: ':':: ' '::d) = d from rfl,
    pyStripL_id_of_all hd]

/-- The line loop step on a `REPLY TO:` line sets the reply field only. -/
theorem loadStep_reply (now : PyDatetime) (st : LoadState)
    (tail : List Char) :
    loadStep now st ('R':: 'E':: 'P':: 'L':: 'Y':: ' ':: 'T':: 'O':: ':'::tail)
      = ({ st with reply_to := some ⟨pyStripL (tail.drop 1)⟩ }, []) := by
  unfold loadStep
  rw [if_neg (by simp [show startsWithL "Date:".data
      ('R':: 'E':: 'P':: 'L':: 'Y':: ' ':: 'T':: 'O':: ':'::tail) = false
      from rfl])]
  rw [if_pos (show startsWithL "REPLY TO:".data
      ('R':: 'E':: 'P':: 'L':: 'Y':: ' ':: 'T':: 'O':: ':'::tail) = true from rfl)]
  rfl

/-- The line loop step on the `CONTENT:` heading is a skip. -/
theorem loadStep_content_header (now : PyDatetime) (st : LoadState) :
    loadStep now st "CONTENT:".data = (st, []) := rfl

/-- The line loop step on an empty line is a skip. -/
theorem loadStep_blank (now : PyDatetime) (st : LoadState) :
    loadStep now st [] = (st, []) := rfl

/-- The line loop step on the separator row is a skip (it is all equals
signs). -/
theorem loadStep_sep (now : PyDatetime) (st : LoadState) :
    loadStep now st sep80.data = (st, []) := rfl

/-- The line loop step on the `URLS:` heading is a skip. -/
theorem loadStep_urls_header (now : PyDatetime) (st : LoadState) :
    loadStep now st "URLS:".data = (st, []) := rfl

/-- The line loop step on a `- url` line appends to the URL list. -/
theorem loadStep_url_item (now : PyDatetime) (st : LoadState)
    (u : List Char) (hu : startsWithL "http".data u = true) :
    loadStep now st ('-':: ' '::u)
      = ({ st with urls := some (st.urls.getD [] ++ [⟨u⟩]) }, []) := by
  unfold loadStep
  rw [if_neg (by simp [show startsWithL "Date:".data ('-':: ' '::u) = false
      from rfl])]
  rw [if_neg (by simp [show startsWithL "REPLY TO:".data ('-':: ' '::u)
      = false from rfl])]
  rw [if_neg (by intro hh; simp at hh)]
  rw [if_neg (by simp [show startsWithL "URLS:".data ('-':: ' '::u) = false
      from rfl])]
  rw [if_neg (by simp [show (startsWithL "http".data ('-':: ' '::u)
      && st.urls.isNone) = false from rfl])]
  rw [if_pos (by rw [show startsWithL "- http".data ('-':: ' '::u)
      = startsWithL "http".data u from rfl, hu])]
  rfl

/-- The line loop step on a benign content line extends the accumulated
content. -/
theorem loadStep_content_line (now : PyDatetime) (st : LoadState)
    (c : List Char) (hb : loaderBenign ⟨c⟩ = true) :
    loadStep now st c
      = ((match st.content with
          | none => { st with content := some ⟨c⟩ }
          | some p => { st with content := some (p ++ " " ++ (⟨c⟩ : String)) }),
         []) := by
  rcases loaderBenign_spec hb with
    ⟨_, hne, hdate, hreply, hcont, hurls, jhttp, hdash, heq, htw, har⟩
  unfold loadStep
  rw [if_neg (by simp [hdate])]
  rw [if_neg (by simp [hreply])]
  rw [if_neg hcont]
  rw [if_neg (by simp [hurls])]
  rw [if_neg (by simp [jhttp])]
  rw [if_neg (by simp [hdash])]
  rw [if_pos (by
    rw [heq, htw, har]
    have hdn : c ≠ [] := data_ne_nil_of_ne hne
    simp [hdn])]

/-- One unfolding of the line loop. -/
theorem loadLinesGo_cons (now : PyDatetime) (l : String)
    (rest : List String) (st : LoadState) :
    loadLinesGo now (l :: rest) st
      = (loadStep now st (pyStripL l.data)).2
        ++ loadLinesGo now rest (loadStep now st (pyStripL l.data)).1 := rfl

/-- A non-`Date:` line emits nothing. -/
theorem loadStep_snd_nil (now : PyDatetime) (st : LoadState)
    (line : List Char) (h : startsWithL "Date:".data line = false) :
    ∃ st2, loadStep now st line = (st2, []) := by
  unfold loadStep
  rw [if_neg (by simp [h])]
  repeat' split
  all_goals exact ⟨_, rfl⟩

/-- Transport of a non-whitespace head requirement. -/
theorem head_prop_of_concrete {p : List Char} {c0 : Char}
    (h : p.head? = some c0) (hws : pyIsSpace c0 = false) :
    ∀ c, p.head? = some c → pyIsSpace c = false := by
  intro c hc
  rw [h] at hc
  rw [← Option.some.inj hc]
  exact hws

/-- The loader strip fixes a keyword prefix followed by a payload with a
non-whitespace last character. -/
theorem pyStripL_id_prefix (p x : List Char)
    (hp : ∀ c, p.head? = some c → pyIsSpace c = false) (hpne : p ≠ [])
    (hlast : ∃ d, x.reverse.head? = some d ∧ pyIsSpace d = false) :
    pyStripL (p ++ x) = p ++ x := by
  refine pyStripL_id_of ?_ ?_
  · intro a ha
    cases p with
    | nil => exact absurd rfl hpne
    | cons q tl =>
        simp only [List.cons_append, List.head?_cons, Option.some.injEq] at ha
        rw [← ha]
        exact hp q rfl
  · intro a ha
    rcases hlast with ⟨d, hd, hws⟩
    have h2 := @reverse_head_append_right p x d hd
    rw [h2] at ha
    obtain rfl := Option.some.inj ha
    exact hws

/-- A nonempty strip-stable string ends in a non-whitespace character. -/
theorem strip_stable_last {s : String} (hne : s.data ≠ [])
    (hs : pyStripL s.data = s.data) :
    ∃ d, s.data.reverse.head? = some d ∧ pyIsSpace d = false := by
  cases hr : s.data.reverse with
  | nil =>
      rw [List.reverse_eq_nil_iff] at hr
      exact absurd hr hne
  | cons a tl =>
      have hh : s.data.reverse.head? = some a := by rw [hr]; rfl
      exact ⟨a, rfl, stripped_last hs a hh⟩

/-- A normalisation fixed point is strip-stable. -/
theorem content_strip_stable {s : String} (hne : s ≠ "")
    (hfix : normalizeContent s = s) : pyStripL s.data = s.data := by
  have h1 := congrArg String.data (normalizeContent_ne s hne)
  rw [hfix] at h1
  rw [h1, pyStripL_idem]

/-- The conjuncts of the benign-URL predicate. -/
theorem loaderBenignUrls_spec {us : List String}
    (h : loaderBenignUrls us = true) :
    ∀ u ∈ us, noNewline u = true ∧ startsWithL "http".data u.data = true ∧
      pyStrip u = u := by
  intro u hu
  unfold loaderBenignUrls at h
  rw [List.all_eq_true] at h
  have h2 := h u hu
  simp only [Bool.and_eq_true, beq_iff_eq] at h2
  exact ⟨h2.1.1, h2.1.2, h2.2⟩

/-- The newline split of the URL section body: one line per URL. -/
theorem urlJoin_lines :
    ∀ (us : List String) (R : List Char), (∀ u ∈ us, '\n' ∉ u.data) →
      splitNl ((String.join (us.map fun u => "- " ++ u ++ "\n")).data ++ R) []
        = (us.map fun u => "- " ++ u) ++ splitNl R [] := by
  intro us
  induction us with
  | nil =>
      intro R _
      rw [join_data]
      rfl
  | cons a t ih =>
      intro R h
      rw [join_data]
      simp only [List.map_cons, List.foldr_cons]
      have harg : (("- " ++ a ++ "\n").data
            ++ List.foldr (fun s r => s.data ++ r) []
                (List.map (fun u => "- " ++ u ++ "\n") t)) ++ R
          = ("- ".data ++ a.data) ++ '\n' ::
              (List.foldr (fun s r => s.data ++ r) []
                (List.map (fun u => "- " ++ u ++ "\n") t) ++ R) := by
        simp only [String.data_append, List.append_assoc, List.cons_append,
          List.nil_append]
      rw [harg]
      rw [splitNl_append ("- ".data ++ a.data) _ [] (by
        intro hm
        rcases List.mem_append.mp hm with hh | hh
        · exact absurd hh (by decide)
        · exact h a (List.mem_cons_self _ _) hh)]
      have ht := ih R (fun u hu => h u (List.mem_cons_of_mem _ hu))
      rw [join_data] at ht
      rw [ht]
      simp only [List.map_cons, List.cons_append]
      rfl

/-- The character stream written for one tweet, grouped into its lines. -/
theorem tweetBlock_data (idx : Nat) (t : Tweet) :
    (tweetBlock idx t).data
      = ("TWEET ".data ++ (natToString idx).data) ++ '\n' ::
        (("Date: ".data ++ (PyDatetime.isoformat t.date).data) ++ '\n' ::
        (("REPLY TO: ".data ++ t.reply_to.data) ++ '\n' ::
        ("CONTENT:".data ++ '\n' ::
        (t.content.data ++ '\n' ::
        ((if t.urls.isEmpty then []
          else '\n' :: ("URLS:".data ++ '\n' ::
            (String.join (t.urls.map fun u => "- " ++ u ++ "\n")).data)) ++
          '\n' :: (sep80.data ++ '\n' :: '\n' :: [])))))) := by
  have hN : ("\n" : String).data = ['\n'] := rfl
  have hC : ("CONTENT:\n" : String).data = "CONTENT:".data ++ ['\n'] := rfl
  have hU : ("\nURLS:\n" : String).data
      = '\n' :: ("URLS:".data ++ ['\n']) := rfl
  have hNN : ("\n\n" : String).data = ['\n', '\n'] := rfl
  unfold tweetBlock
  by_cases hu : t.urls.isEmpty
  · rw [if_pos hu, if_pos hu]
    simp only [String.data_append, hN, hC, hNN, List.append_assoc,
      List.cons_append, List.singleton_append, List.nil_append,
      List.append_nil]
  · rw [if_neg hu, if_neg hu]
    simp only [String.data_append, hN, hC, hU, hNN, List.append_assoc,
      List.cons_append, List.singleton_append, List.nil_append,
      List.append_nil]

/-- Peeling one line with an outer continuation. -/
theorem splitNl_peel (a T R : List Char) (ha : '\n' ∉ a) :
    splitNl ((a ++ '\n' :: T) ++ R) [] = ⟨a⟩ :: splitNl (T ++ R) [] := by
  rw [List.append_assoc, List.cons_append]
  exact splitNl_step1 a (T ++ R) ha

/-- Empty-line peel with a continuation. -/
theorem splitNl_consnl_append (T R : List Char) :
    splitNl (('\n' :: T) ++ R) [] = "" :: splitNl (T ++ R) [] := by
  rw [List.cons_append]
  exact splitNl_step0 _

/-- Dropping an inert empty prefix of the scanned text. -/
theorem splitNl_nil_append (R : List Char) :
    splitNl ([] ++ R) [] = splitNl R [] := rfl

/-- Peeling a line that is followed by two further chunks. -/
theorem splitNl_peel2 (a T Y R : List Char) (ha : '\n' ∉ a) :
    splitNl (((a ++ '\n' :: T) ++ Y) ++ R) []
      = ⟨a⟩ :: splitNl ((T ++ Y) ++ R) [] := by
  rw [List.append_assoc, List.append_assoc, List.cons_append]
  rw [splitNl_step1 a _ ha, List.append_assoc]

/-- Empty-line peel in front of two further chunks. -/
theorem splitNl_consnl2 (X Y R : List Char) :
    splitNl ((('\n' :: X) ++ Y) ++ R) [] = "" :: splitNl ((X ++ Y) ++ R) [] := by
  rw [List.cons_append, List.cons_append]
  exact splitNl_step0 _

/-- The newline split of one tweet section followed by further text. -/
theorem tweetBlock_lines (idx : Nat) (t : Tweet) (R : List Char)
    (hb : loaderBenign t.content = true)
    (hrn : noNewline t.reply_to = true)
    (hun : ∀ u ∈ t.urls, '\n' ∉ u.data) :
    splitNl ((tweetBlock idx t).data ++ R) []
      = tweetLines idx t ++ splitNl R [] := by
  have hL1 : '\n' ∉ "TWEET ".data ++ (natToString idx).data := by
    intro hm
    rcases List.mem_append.mp hm with h | h
    · exact absurd h (by decide)
    · exact natToString_noNl _ h rfl
  have hL2 : '\n' ∉ "Date: ".data ++ (PyDatetime.isoformat t.date).data := by
    intro hm
    rcases List.mem_append.mp hm with h | h
    · exact absurd h (by decide)
    · exact isoformat_noNl _ _ h rfl
  have hL3 : '\n' ∉ "REPLY TO: ".data ++ t.reply_to.data := by
    intro hm
    rcases List.mem_append.mp hm with h | h
    · exact absurd h (by decide)
    · exact noNewline_iff.mp hrn h
  have hL5 : '\n' ∉ t.content.data :=
    noNewline_iff.mp (loaderBenign_spec hb).1
  rw [tweetBlock_data]
  rw [splitNl_peel _ _ _ hL1]
  rw [splitNl_peel _ _ _ hL2]
  rw [splitNl_peel _ _ _ hL3]
  rw [splitNl_peel _ _ _ (by decide : '\n' ∉ "CONTENT:".data)]
  rw [splitNl_peel _ _ _ hL5]
  by_cases hu : t.urls.isEmpty
  · rw [if_pos hu]
    rw [splitNl_peel _ _ _ (by intro hm; cases hm)]
    rw [splitNl_peel _ _ _ sep80_noNl]
    rw [splitNl_consnl_append, splitNl_nil_append]
    have hTL : tweetLines idx t
        = ["TWEET " ++ natToString idx, "Date: " ++ t.date.isoformat,
           "REPLY TO: " ++ t.reply_to, "CONTENT:", t.content, "", sep80,
           ""] := by
      unfold tweetLines
      rw [if_pos hu]
      rfl
    rw [hTL]
    rfl
  · rw [if_neg hu]
    rw [splitNl_consnl2]
    rw [splitNl_peel2 _ _ _ _ (by decide : '\n' ∉ "URLS:".data)]
    rw [List.append_assoc]
    rw [urlJoin_lines t.urls _ hun]
    rw [splitNl_consnl_append, splitNl_peel _ _ _ sep80_noNl,
      splitNl_consnl_append, splitNl_nil_append]
    have hTL : tweetLines idx t
        = ["TWEET " ++ natToString idx, "Date: " ++ t.date.isoformat,
           "REPLY TO: " ++ t.reply_to, "CONTENT:", t.content, "", "URLS:"]
          ++ ((t.urls.map fun u => "- " ++ u) ++ ["", sep80, ""]) := by
      unfold tweetLines
      rw [if_neg hu]
      simp [List.append_assoc]
    rw [hTL]
    simp only [List.cons_append, List.append_assoc, List.nil_append]
    rfl

/-- The newline split of all tweet sections. -/
theorem tweetBlocks_lines :
    ∀ (ts : List Tweet) (idx : Nat), (∀ s ∈ ts, roundTripSafe s) →
      splitNl (tweetBlocks idx ts).data [] = blocksLines idx ts ++ [""] := by
  intro ts
  induction ts with
  | nil => intro idx _; rfl
  | cons t rest ih =>
      intro idx h
      have ht := h t (List.mem_cons_self _ _)
      have hd : splitNl (tweetBlocks idx (t :: rest)).data []
          = splitNl ((tweetBlock idx t).data
              ++ (tweetBlocks (idx + 1) rest).data) [] := rfl
      rw [hd]
      rw [tweetBlock_lines idx t _ ht.1
        ht.2.2.1
        (fun u hu => noNewline_iff.mp (loaderBenignUrls_spec ht.2.2.2.2 u hu).1)]
      rw [ih (idx + 1) (fun s hs => h s (List.mem_cons_of_mem _ hs))]
      rw [show blocksLines idx (t :: rest)
          = tweetLines idx t ++ blocksLines (idx + 1) rest from rfl,
        List.append_assoc]

/-- The newline split of the complete saved file. -/
theorem saveCleanedTweets_lines (ts : List Tweet)
    (h : ∀ s ∈ ts, roundTripSafe s) :
    splitNl (saveCleanedTweets ts).data []
      = "CLEANED TWEETS - DUPLICATES REMOVED"
        :: ("Total tweets: " ++ natToString ts.length) :: sep80 :: ""
        :: (blocksLines 1 ts ++ [""]) := by
  have hS : (saveCleanedTweets ts).data
      = "CLEANED TWEETS - DUPLICATES REMOVED".data ++ '\n' ::
        (("Total tweets: ".data ++ (natToString ts.length).data) ++ '\n' ::
        (sep80.data ++ '\n' :: '\n' :: (tweetBlocks 1 ts).data)) := by
    have hN : ("\n" : String).data = ['\n'] := rfl
    have hH : ("CLEANED TWEETS - DUPLICATES REMOVED\n" : String).data
        = "CLEANED TWEETS - DUPLICATES REMOVED".data ++ ['\n'] := rfl
    have hNN : ("\n\n" : String).data = ['\n', '\n'] := rfl
    unfold saveCleanedTweets
    simp only [String.data_append, hN, hH, hNN, List.append_assoc,
      List.cons_append, List.singleton_append, List.nil_append,
      List.append_nil]
  rw [hS]
  rw [splitNl_step1 _ _ (by decide)]
  rw [splitNl_step1 _ _ (by
    intro hm
    rcases List.mem_append.mp hm with hh | hh
    · exact absurd hh (by decide)
    · exact natToString_noNl _ hh rfl)]
  rw [splitNl_step1 _ _ sep80_noNl]
  rw [splitNl_step0]
  rw [tweetBlocks_lines ts 1 h]
  rfl

/-- The URL item lines of a section update only the URL list. -/
theorem loadLinesGo_urlItems (now : PyDatetime) :
    ∀ (us : List String) (R : List String) (st : LoadState),
      (∀ u ∈ us, startsWithL "http".data u.data = true ∧ pyStrip u = u) →
      ∃ st2 : LoadState, st2.content = st.content ∧
        loadLinesGo now ((us.map fun u => "- " ++ u) ++ R) st
          = loadLinesGo now R st2 := by
  intro us
  induction us with
  | nil =>
      intro R st _
      exact ⟨st, rfl, rfl⟩
  | cons u rest ih =>
      intro R st h
      have hu := h u (List.mem_cons_self _ _)
      have hne : u.data ≠ [] := by
        intro hd
        rw [hd] at hu
        exact absurd hu.1 (by decide)
      have hstrip : pyStripL ("- " ++ u).data = '-':: ' '::u.data := by
        have he : ("- " ++ u).data = "- ".data ++ u.data := rfl
        rw [he, pyStripL_id_prefix _ _
          (head_prop_of_concrete
            (show ("- ".data).head? = some '-' from rfl) (by decide))
          (by decide)
          (strip_stable_last hne (congrArg String.data hu.2))]
        rfl
      rw [List.map_cons, List.cons_append, loadLinesGo_cons, hstrip,
        loadStep_url_item now st u.data hu.1]
      obtain ⟨st2, hc, heq⟩ :=
        ih R { st with urls := some (st.urls.getD [] ++ [⟨u.data⟩]) }
          (fun v hv => h v (List.mem_cons_of_mem _ hv))
      refine ⟨st2, by rw [hc], ?_⟩
      exact heq

/-- Processing the lines of one tweet section: the previous record is
flushed at the `Date:` line and the section content is accumulated. -/
theorem loadLinesGo_block (now : PyDatetime) (t : Tweet)
    (hb : loaderBenign t.content = true)
    (hfix : normalizeContent t.content = t.content)
    (hrs : pyStrip t.reply_to = t.reply_to)
    (hu : loaderBenignUrls t.urls = true) :
    ∀ (idx : Nat) (R : List String) (st : LoadState),
      ∃ st2 : LoadState, st2.content = some t.content ∧
        loadLinesGo now (tweetLines idx t ++ R) st
          = flushState st now ++ loadLinesGo now R st2 := by
  intro idx R st
  have hst1 : pyStripL ("TWEET " ++ natToString idx).data
      = 'T':: 'W':: 'E':: 'E':: 'T':: ' '::(natToString idx).data := by
    have he : ("TWEET " ++ natToString idx).data
        = "TWEET ".data ++ (natToString idx).data := rfl
    rw [he, pyStripL_id_prefix _ _
      (head_prop_of_concrete
        (show ("TWEET ".data).head? = some 'T' from rfl) (by decide))
      (by decide) (natToString_last idx)]
    rfl
  have hsd : pyStripL ("Date: " ++ t.date.isoformat).data
      = 'D':: 'a':: 't':: 'e':: ':':: ' '::(PyDatetime.isoformat t.date).data := by
    have he : ("Date: " ++ t.date.isoformat).data
        = "Date: ".data ++ (PyDatetime.isoformat t.date).data := rfl
    rw [he, pyStripL_id_prefix _ _
      (head_prop_of_concrete
        (show ("Date: ".data).head? = some 'D' from rfl) (by decide))
      (by decide) (isoformat_last t.date)]
    rfl
  have hreply : ∃ tl, pyStripL ("REPLY TO: " ++ t.reply_to).data
      = 'R':: 'E':: 'P':: 'L':: 'Y':: ' ':: 'T':: 'O':: ':'::tl := by
    by_cases hre : t.reply_to = ""
    · refine ⟨[], ?_⟩
      rw [hre]
      decide
    · refine ⟨' ' :: t.reply_to.data, ?_⟩
      have he : ("REPLY TO: " ++ t.reply_to).data
          = "REPLY TO: ".data ++ t.reply_to.data := rfl
      rw [he, pyStripL_id_prefix _ _
        (head_prop_of_concrete
          (show ("REPLY TO: ".data).head? = some 'R' from rfl) (by decide))
        (by decide)
        (strip_stable_last (data_ne_nil_of_ne hre)
          (congrArg String.data hrs))]
      rfl
  obtain ⟨tl, hst3⟩ := hreply
  have hcC : pyStripL ("CONTENT:" : String).data = "CONTENT:".data := by
    decide
  have hst5 : pyStripL t.content.data = t.content.data :=
    content_strip_stable (loaderBenign_spec hb).2.1 hfix
  have hsep : pyStripL sep80.data = sep80.data :=
    pyStripL_id_of_all sep80_not_ws
  have hblank : pyStripL ("" : String).data = [] := rfl
  have hcU : pyStripL ("URLS:" : String).data = "URLS:".data := by decide
  by_cases hue : t.urls.isEmpty
  · have hlines : tweetLines idx t ++ R
        = ("TWEET " ++ natToString idx) :: ("Date: " ++ t.date.isoformat)
          :: ("REPLY TO: " ++ t.reply_to) :: "CONTENT:" :: t.content
          :: "" :: sep80 :: "" :: R := by
      unfold tweetLines
      rw [if_pos hue]
      rfl
    rw [hlines]
    rw [loadLinesGo_cons, hst1, loadStep_tweet_header]
    dsimp only [List.nil_append]
    rw [loadLinesGo_cons, hsd, loadStep_date _ _ _ (isoformat_not_ws t.date)]
    dsimp only
    rw [loadLinesGo_cons, hst3, loadStep_reply]
    dsimp only [List.nil_append]
    rw [loadLinesGo_cons, hcC, loadStep_content_header]
    dsimp only [List.nil_append]
    rw [loadLinesGo_cons, hst5,
      loadStep_content_line _ _ _ (by
        rw [show (⟨t.content.data⟩ : String) = t.content from rfl]
        exact hb)]
    dsimp only [List.nil_append]
    rw [loadLinesGo_cons, hblank, loadStep_blank]
    dsimp only [List.nil_append]
    rw [loadLinesGo_cons, hsep, loadStep_sep]
    dsimp only [List.nil_append]
    rw [loadLinesGo_cons, hblank, loadStep_blank]
    dsimp only [List.nil_append]
    exact ⟨_, rfl, rfl⟩
  · have hlines : tweetLines idx t ++ R
        = ("TWEET " ++ natToString idx) :: ("Date: " ++ t.date.isoformat)
          :: ("REPLY TO: " ++ t.reply_to) :: "CONTENT:" :: t.content
          :: "" :: "URLS:"
          :: (((t.urls.map fun u => "- " ++ u) ++ ["", sep80, ""]) ++ R) := by
      unfold tweetLines
      rw [if_neg hue]
      rfl
    rw [hlines]
    rw [loadLinesGo_cons, hst1, loadStep_tweet_header]
    dsimp only [List.nil_append]
    rw [loadLinesGo_cons, hsd, loadStep_date _ _ _ (isoformat_not_ws t.date)]
    dsimp only
    rw [loadLinesGo_cons, hst3, loadStep_reply]
    dsimp only [List.nil_append]
    rw [loadLinesGo_cons, hcC, loadStep_content_header]
    dsimp only [List.nil_append]
    rw [loadLinesGo_cons, hst5,
      loadStep_content_line _ _ _ (by
        rw [show (⟨t.content.data⟩ : String) = t.content from rfl]
        exact hb)]
    dsimp only [List.nil_append]
    rw [loadLinesGo_cons, hblank, loadStep_blank]
    dsimp only [List.nil_append]
    rw [loadLinesGo_cons, hcU, loadStep_urls_header]
    dsimp only [List.nil_append]
    rw [List.append_assoc]
    obtain ⟨st2, hc, heq⟩ := loadLinesGo_urlItems now t.urls (["", sep80, ""] ++ R) _
      (fun v hv =>
        ⟨(loaderBenignUrls_spec hu v hv).2.1, (loaderBenignUrls_spec hu v hv).2.2⟩)
    rw [heq]
    rw [show (["", sep80, ""] ++ R : List String)
      = "" :: sep80 :: "" :: R from rfl]
    rw [loadLinesGo_cons, hblank, loadStep_blank]
    dsimp only [List.nil_append]
    rw [loadLinesGo_cons, hsep, loadStep_sep]
    dsimp only [List.nil_append]
    rw [loadLinesGo_cons, hblank, loadStep_blank]
    dsimp only [List.nil_append]
    refine ⟨st2, ?_, rfl⟩
    rw [hc]

/-- Once a record with the given content is accumulated, some loaded tweet
carries that content (flushed at the next `Date:` line or at the end). -/
theorem loadLinesGo_tail (now : PyDatetime) :
    ∀ (post : List Tweet) (idx : Nat) (st : LoadState) (c : String),
      (∀ s ∈ post, roundTripSafe s) → st.content = some c →
      ∃ t' ∈ loadLinesGo now (blocksLines idx post ++ [""]) st,
        t'.content = normalizeContent c := by
  intro post
  cases post with
  | nil =>
      intro idx st c _ hc
      have hrun : loadLinesGo now (blocksLines idx [] ++ [""]) st
          = flushState st now := rfl
      rw [hrun]
      unfold flushState
      rw [hc]
      rw [if_pos (show (some c).isSome = true from rfl)]
      exact ⟨_, List.mem_singleton_self _, rfl⟩
  | cons s post =>
      intro idx st c hall hc
      rw [show blocksLines idx (s :: post)
          = tweetLines idx s ++ blocksLines (idx + 1) post from rfl,
        List.append_assoc]
      have hs := hall s (List.mem_cons_self _ _)
      obtain ⟨st2, hc2, heq⟩ :=
        loadLinesGo_block now s hs.1 hs.2.1 hs.2.2.2.1 hs.2.2.2.2 idx
          (blocksLines (idx + 1) post ++ [""]) st
      rw [heq]
      have hflush : flushState st now
          = [Tweet.make (st.date.getD "") c (st.reply_to.getD "")
              (st.urls.getD []) now] := by
        unfold flushState
        rw [hc]
        rw [if_pos (show (some c).isSome = true from rfl)]
        rfl
      rw [hflush]
      exact ⟨_, List.mem_append.mpr (Or.inl (List.mem_singleton_self _)),
        rfl⟩

/-- Some loaded tweet carries the content of every saved record, provided
all saved records are loader-benign. -/
theorem loadLinesGo_reach (now : PyDatetime) :
    ∀ (pre : List Tweet) (t : Tweet) (post : List Tweet) (idx : Nat)
      (st : LoadState),
      (∀ s ∈ pre, roundTripSafe s) → roundTripSafe t →
      (∀ s ∈ post, roundTripSafe s) →
      ∃ t' ∈ loadLinesGo now (blocksLines idx (pre ++ t :: post) ++ [""]) st,
        t'.content = normalizeContent t.content := by
  intro pre
  induction pre with
  | nil =>
      intro t post idx st _ ht hpost
      rw [show blocksLines idx ([] ++ t :: post)
          = tweetLines idx t ++ blocksLines (idx + 1) post from rfl,
        List.append_assoc]
      obtain ⟨st2, hc2, heq⟩ :=
        loadLinesGo_block now t ht.1 ht.2.1 ht.2.2.2.1 ht.2.2.2.2 idx
          (blocksLines (idx + 1) post ++ [""]) st
      rw [heq]
      obtain ⟨t2, hmem, hct⟩ :=
        loadLinesGo_tail now post (idx + 1) st2 t.content hpost hc2
      exact ⟨t2, List.mem_append.mpr (Or.inr hmem), hct⟩
  | cons s pre ih =>
      intro t post idx st hpre ht hpost
      rw [show blocksLines idx ((s :: pre) ++ t :: post)
          = tweetLines idx s ++ blocksLines (idx + 1) (pre ++ t :: post)
          from rfl, List.append_assoc]
      have hs := hpre s (List.mem_cons_self _ _)
      obtain ⟨st2, hc2, heq⟩ :=
        loadLinesGo_block now s hs.1 hs.2.1 hs.2.2.2.1 hs.2.2.2.2 idx
          (blocksLines (idx + 1) (pre ++ t :: post) ++ [""]) st
      rw [heq]
      obtain ⟨t2, hmem, hct⟩ := ih t post (idx + 1) st2
        (fun x hx => hpre x (List.mem_cons_of_mem _ hx)) ht hpost
      exact ⟨t2, List.mem_append.mpr (Or.inr hmem), hct⟩

/-- The four header lines of the saved file emit nothing. -/
theorem loadLinesGo_header (now : PyDatetime) (n : Nat) (R : List String) :
    ∃ st0, loadLinesGo now
        ("CLEANED TWEETS - DUPLICATES REMOVED"
          :: ("Total tweets: " ++ natToString n) :: sep80 :: "" :: R)
        initLoadState
      = loadLinesGo now R st0 := by
  rw [loadLinesGo_cons]
  obtain ⟨s1, h1⟩ := loadStep_snd_nil now initLoadState
    (pyStripL ("CLEANED TWEETS - DUPLICATES REMOVED" : String).data)
    (by decide)
  rw [h1]
  dsimp only [List.nil_append]
  rw [loadLinesGo_cons]
  have hst2 : pyStripL ("Total tweets: " ++ natToString n).data
      = 'T':: 'o':: 't':: 'a':: 'l':: ' ':: 't':: 'w':: 'e':: 'e':: 't':: 's':: ':':: ' '
        ::(natToString n).data := by
    have he : ("Total tweets: " ++ natToString n).data
        = "Total tweets: ".data ++ (natToString n).data := rfl
    rw [he, pyStripL_id_prefix _ _
      (head_prop_of_concrete
        (show ("Total tweets: ".data).head? = some 'T' from rfl) (by decide))
      (by decide) (natToString_last n)]
    rfl
  rw [hst2]
  obtain ⟨s2, h2⟩ := loadStep_snd_nil now s1
    ('T':: 'o':: 't':: 'a':: 'l':: ' ':: 't':: 'w':: 'e':: 'e':: 't':: 's':: ':':: ' '
      ::(natToString n).data) (by rfl)
  rw [h2]
  dsimp only [List.nil_append]
  rw [loadLinesGo_cons, pyStripL_id_of_all sep80_not_ws, loadStep_sep]
  dsimp only [List.nil_append]
  rw [loadLinesGo_cons, show pyStripL ("" : String).data = [] from rfl,
    loadStep_blank]
  dsimp only [List.nil_append]
  exact ⟨_, rfl⟩

/-- C5: the round-trip property holds conditionally, not universally.
For every record of a saved batch whose fields are loader-benign (content
is a single newline-free line without the filtered substrings and a fixed
point of normalisation, the reply field is a stripped single line, every
URL is a stripped single `http` line), some record read back from the
written file carries the same comparison text and the same content
fingerprint.  The counterexample shows the unconditional claim false. -/
theorem C5_roundtrip_conditional (ts : List Tweet) (t : Tweet)
    (now : PyDatetime) (hmem : t ∈ ts)
    (hall : ∀ s ∈ ts, roundTripSafe s) :
    ∃ t' ∈ loadFromFile (saveCleanedTweets ts) now,
      t'.content = t.content ∧ t'.getContentHash = t.getContentHash := by
  obtain ⟨pre, post, hts⟩ := List.append_of_mem hmem
  subst hts
  have hlines := saveCleanedTweets_lines (pre ++ t :: post) hall
  unfold loadFromFile
  rw [hlines]
  obtain ⟨st0, h0⟩ := loadLinesGo_header now (pre ++ t :: post).length
    (blocksLines 1 (pre ++ t :: post) ++ [""])
  rw [h0]
  have ht := hall t (List.mem_append.mpr (Or.inr (List.mem_cons_self _ _)))
  obtain ⟨t2, hmem2, hct⟩ := loadLinesGo_reach now pre t post 1 st0
    (fun s hs => hall s (List.mem_append.mpr (Or.inl hs))) ht
    (fun s hs => hall s
      (List.mem_append.mpr (Or.inr (List.mem_cons_of_mem _ hs))))
  refine ⟨t2, hmem2, ?_, ?_⟩
  · rw [hct, ht.2.1]
  · show md5Hex t2.content = md5Hex t.content
    rw [hct, ht.2.1]

/-- C5 counterexample: a record whose normalised content contains an
equals sign is dropped by the loader line filter on re-reading, and the
unfiltered `Total tweets:` header line comes back as a phantom record, so
the unconditional round-trip claim fails. -/
theorem C5_roundtrip_counterexample :
    (loadFromFile (saveCleanedTweets [w0]) now0).map Tweet.content
      = ["Total tweets: 1"] ∧ w0.content = "a=b" := by
  refine ⟨by decide, by decide⟩

/-- C5 witness: a concrete benign record survives the round trip with its
comparison text and fingerprint intact. -/
theorem C5_roundtrip_witness :
    v0 ∈ [v0] ∧ (∀ s ∈ [v0], roundTripSafe s) ∧
    ∃ t' ∈ loadFromFile (saveCleanedTweets [v0]) now0,
      t'.content = v0.content ∧ t'.getContentHash = v0.getContentHash :=
  ⟨List.mem_singleton_self _, by decide,
    C5_roundtrip_conditional [v0] v0 now0 (List.mem_singleton_self _)
      (by decide)⟩

end TwitterDedup
